import Mathlib

/-!
# Verification of the loverly-frankenstein entity/source composition engine

A shallow embedding, in Lean 4, of the core of the `loverly-frankenstein`
Node.js model layer (`src/lib/Instance.js`, `src/lib/AbstractModel.js`,
`src/lib/AbstractTable.js`), together with theorems settling the claims of
the natural-language specification.

Conventions used throughout the embedding:

* JavaScript values are modelled by the inductive type `JVal`; JS objects are
  association lists in property-insertion order, JS `undefined` is
  `JVal.undef` and JS `null` is `JVal.nullv`.
* Asynchronous callback orchestration is modelled by explicit state passing
  over the instance's `sourceOp` record (`SourceOpSt`) plus explicit event
  traces (`WireStep` lists) describing, in program order, which
  sub-operations a routine wires up.
* Places where the JavaScript would throw a `TypeError` on inputs that the
  engine never produces (for example reading a property of `undefined`) are
  noted in comments; where a thrown exception aborts a loop the model emits
  a `WireStep.crash` marker and stops, mirroring exception control flow.
-/

namespace Frankenstein

/-- Scalar ("primitive") JavaScript values.  Used for configured default
values of field definitions (`definition[i].defaultValue`), which in this
code base are scalars or generator functions returning scalars. -/
inductive JPrim where
  | undef : JPrim
  | nullv : JPrim
  | boolv (b : Bool) : JPrim
  | num (n : Int) : JPrim
  | strv (s : String) : JPrim
deriving Repr, DecidableEq

/-- Field-to-source mapping attached to a leaf field definition
(`definition[i].mapping`).  Serializers and deserializers are opaque
configured callbacks; they are referenced by name and interpreted by an
environment (`Env`). -/
structure FieldMapping where
  mtype : Option String := none
  source : Option String := none
  aliasName : Option String := none
  refAlias : Option String := none
  serializerName : Option String := none
  deserializerName : Option String := none
  model : Option String := none
deriving Repr, DecidableEq

mutual

/-- JavaScript values as stored on entity instances.  `inst` is a live
`Instance` object: its field-definition tree, its field-metadata tree
(`__meta.fields`), the instance-level error flag (`__meta.hasError`), the
`shouldDelete` closure flag, and its bound data properties. -/
inductive JVal where
  | undef : JVal
  | nullv : JVal
  | boolv (b : Bool) : JVal
  | num (n : Int) : JVal
  | strv (s : String) : JVal
  | fn : JVal
  | arr (xs : List JVal) : JVal
  | obj (fs : List (String × JVal)) : JVal
  | inst (defn : List (String × FieldDef)) (meta : List (String × MetaNode))
         (hasError : Bool) (shouldDel : Bool) (fields : List (String × JVal)) : JVal

/-- One node of the Field Definition Tree.  `leaf` is an ordinary field
definition; `sub` is a sub-document (a definition with no `type` key and at
least one child object outside `{constraints, views, mapping}`); `arrDef`
is a definition that is literally a JS `Array` (`definition[i] instanceof
Array`), i.e. a one-to-many sub-entity placeholder.  `views` holds the keys
of the view lookup hash produced by `AbstractModel.modifyDefinitions` (all
its values are `true`).  A default value is either a scalar
(`defaultValue`) or a named generator function (`defaultGen`). -/
inductive FieldDef where
  | leaf (ftype : Option String) (required : Bool)
         (defaultValue : Option JPrim) (defaultGen : Option String)
         (readOnly : Bool) (views : List String)
         (constraints : List (String × List JPrim))
         (mapping : Option FieldMapping) : FieldDef
  | sub (fields : List (String × FieldDef)) : FieldDef
  | arrDef (views : List String) (mapping : Option FieldMapping) : FieldDef

/-- One node of the field-metadata tree created by
`Instance.prototype.createFieldMetadata`: leaves track
`{hasChanged, hasError, lastError, previousValue}`, sub-documents recurse. -/
inductive MetaNode where
  | leaf (hasChanged : Bool) (hasError : Bool) (lastError : String)
         (previousValue : JVal) : MetaNode
  | sub (fields : List (String × MetaNode)) : MetaNode

end

namespace JVal

/-- JavaScript truthiness: `undefined`, `null`, `false`, `0`, and `""` are
falsy, everything else (objects, arrays, functions, instances included) is
truthy. -/
def truthy : JVal → Bool
  | .undef => false
  | .nullv => false
  | .boolv b => b
  | .num n => n ≠ 0
  | .strv s => s ≠ ""
  | .fn => true
  | .arr _ => true
  | .obj _ => true
  | .inst _ _ _ _ _ => true

/-- JavaScript strict equality (`===`) restricted to the cases the engine
exercises: scalar values compare structurally; composite values (objects,
arrays, functions, instances) compare by reference and two separately
constructed composites are never identical, so the model conservatively
returns `false` for them. -/
def strictEq : JVal → JVal → Bool
  | .undef, .undef => true
  | .nullv, .nullv => true
  | .boolv a, .boolv b => a = b
  | .num a, .num b => a = b
  | .strv a, .strv b => a = b
  | _, _ => false

/-- JavaScript `String(x)` coercion for scalar values (used for submodel
array id lookup keys); composite values get their generic tags. -/
def jsString : JVal → String
  | .undef => "undefined"
  | .nullv => "null"
  | .boolv b => if b then "true" else "false"
  | .num n => toString n
  | .strv s => s
  | .fn => "function"
  | .arr _ => ""
  | .obj _ => "[object Object]"
  | .inst _ _ _ _ _ => "[object Object]"

end JVal

/-- First-match association-list lookup, `object[key]` for our object model. -/
def assocGet {α : Type} (fs : List (String × α)) (k : String) : Option α :=
  match fs with
  | [] => none
  | (k', v) :: tl => if k' = k then some v else assocGet tl k

/-- Association-list update, `object[key] = value`.  Keeps the key's original
position if present (as JS objects do) and appends otherwise. -/
def assocSet {α : Type} (fs : List (String × α)) (k : String) (v : α) :
    List (String × α) :=
  match fs with
  | [] => [(k, v)]
  | (k', v') :: tl => if k' = k then (k, v) :: tl else (k', v') :: assocSet tl k v

/-- Property read `v[k]` on a JS value: returns `undefined` for a missing
property and for non-object receivers.  (In JS reading a property of
`undefined`/`null` throws a `TypeError`; the engine only reads properties of
objects here.) -/
def jget (v : JVal) (k : String) : JVal :=
  match v with
  | .obj fs => (assocGet fs k).getD .undef
  | .inst _ _ _ _ fs => (assocGet fs k).getD .undef
  | _ => (.undef)

/-- Property write `v[k] = x` on a JS value; a no-op on non-objects (where
the JS engine would throw for `undefined`/`null` receivers). -/
def jset (v : JVal) (k : String) (x : JVal) : JVal :=
  match v with
  | .obj fs => .obj (assocSet fs k x)
  | .inst d m h sd fs => .inst d m h sd (assocSet fs k x)
  | _ => v

/-- Embed a scalar into `JVal`. -/
def JPrim.toJVal : JPrim → JVal
  | .undef => .undef
  | .nullv => .nullv
  | .boolv b => .boolv b
  | .num n => .num n
  | .strv s => .strv s


/-! ## The Completion Barrier (`__meta.sourceOp`, Instance.js lines 64-222)

`Instance` keeps a per-operation record `{count, callback, isFailed,
error}`.  `startSourceOp` increments the count, `finishSourceOp` decrements
it and fires the stored callback with `(null, self)` when the count reaches
zero, `failSourceOp` latches the failed state and fires the callback with a
translated error. -/

/-- The `__meta.sourceOp` record: pending-operation count, whether the
completion callback is still stored (`callback !== null`), the failure
latch, and the last raw error stored into `sourceOp.error`. -/
structure SourceOpSt where
  count : Int
  hasCallback : Bool
  isFailed : Bool
  error : Option JVal := none

/-- One invocation of the stored completion callback: `cb(null, self)` on
success, `cb(err, null)` on failure. -/
inductive CbCall where
  | success : CbCall
  | failure (err : JVal) : CbCall

/-- Result of running one barrier primitive: the new `sourceOp` state, the
callback invocations it performed, the raw errors it logged via
`console.error`, and whether it invoked a `null` callback (a TypeError in
JS; unreachable in the engine's own flows). -/
structure OpEffect where
  state : SourceOpSt
  calls : List CbCall := []
  log : List JVal := []
  crashed : Bool := false

/-- `if (err instanceof Array) err = err[0];` (Instance.js 129-131). -/
def unwrapErr : JVal → JVal
  | .arr xs => xs.headD .undef
  | e => e

/-- Error translation performed by `failSourceOp` (Instance.js 129-138):
an array error is replaced by its first element; a `'ER_DUP_ENTRY'` code
becomes `{code: 400, error: err.message}`; any other code different from the
number `404` becomes `{code: 500, error: 'Internal Server Error'}`; a `404`
error object is passed through unchanged. -/
def translateSourceError (err : JVal) : JVal :=
  let e := unwrapErr err
  if JVal.strictEq (jget e "code") (.strv "ER_DUP_ENTRY") then
    .obj [("code", .num 400), ("error", jget e "message")]
  else if ¬ JVal.strictEq (jget e "code") (.num 404) then
    .obj [("code", .num 500), ("error", .strv "Internal Server Error")]
  else e

/-- `this.failSourceOp(err)` (Instance.js 107-141).  Stores the raw error,
clears the stored callback, logs the raw error, short-circuits if the
operation has already failed, otherwise latches `isFailed`, translates the
error and invokes the (previously stored) callback with it. -/
def failSourceOp (s : SourceOpSt) (err : JVal) : OpEffect :=
  let s1 : SourceOpSt :=
    { s with error := some err, hasCallback := false }
  -- console.error of the raw error happens before the short-circuit check
  if s1.isFailed then
    { state := s1, calls := [], log := [err] }
  else
    { state := { s1 with isFailed := true },
      calls := [.failure (translateSourceError err)],
      log := [err],
      -- cb(err, null) with cb === null would throw in JS
      crashed := ¬ s.hasCallback }

/-- `this.startSourceOp()` (Instance.js 146-148). -/
def startSourceOp (s : SourceOpSt) : SourceOpSt :=
  { s with count := s.count + 1 }

/-- `this.finishSourceOp()` (Instance.js 153-167).  Decrements the count;
does nothing further if the operation already failed; fires and clears the
stored callback when no operation is in progress (`count > 0` is false) and
a callback is stored. -/
def finishSourceOp (s : SourceOpSt) : OpEffect :=
  let s1 : SourceOpSt := { s with count := s.count - 1 }
  if s1.isFailed then
    { state := s1 }
  else if ¬ (s1.count > 0) ∧ s1.hasCallback then
    { state := { s1 with hasCallback := false }, calls := [.success] }
  else
    { state := s1 }

/-- A completion report from one concurrently dispatched sub-operation:
either its closure called `finishSourceOp` or it called
`failSourceOp err`. -/
inductive OpEvent where
  | finish : OpEvent
  | fail (err : JVal) : OpEvent

/-- Run a sequence of sub-operation completion reports against the barrier,
collecting every callback invocation in order. -/
def runSourceOps (s : SourceOpSt) : List OpEvent → SourceOpSt × List CbCall
  | [] => (s, [])
  | e :: rest =>
    let eff := match e with
      | .finish => finishSourceOp s
      | .fail err => failSourceOp s err
    let res := runSourceOps eff.state rest
    (res.1, eff.calls ++ res.2)

/-! ## Source registry and adapter record handles -/

/-- An entry of the per-model source registry (`this.sources[i]` in
`AbstractModel`): the adapter's name (`sourceInfo.source.name`), the
source-relationship kind (`one-to-one`, `one-to-one-ref`, `one-to-many`,
`search`), the primary flag, the linking foreign key and, for non-one-to-one
relationships, the entity field this binding populates. -/
structure SourceInfo where
  name : String
  relationship : Option String := none
  is_primary : Bool := false
  foreign_key : Option String := none
  field : Option String := none
deriving Repr, DecidableEq

/-- An adapter record handle (e.g. the sequelize DAO returned by
`AbstractTable.createInstance`, conformed to the frankenstein instance API):
its attribute values and the adapter-side list of changed attributes backing
the `isModified()` / `isDirty` query.  Direct property assignment
(`instance[k] = v`, as opposed to `instance.set(k, v)`) bypasses the
adapter's change tracking. -/
structure SourceRecord where
  fields : List (String × JVal) := []
  changed : List String := []

/-- The sequelize `isDirty` bridge (`AbstractTable.bridgeMethods.isModified`):
the record reports modified fields. -/
def SourceRecord.isDirty (r : SourceRecord) : Bool := ¬ r.changed.isEmpty

/-- Raw JS property assignment `record[k] = v` with `k` possibly `undefined`
(in which case JS writes the property literally named `"undefined"`).
Does not touch the adapter's changed-attribute tracking. -/
def SourceRecord.rawSet (r : SourceRecord) (k : Option String) (v : JVal) :
    SourceRecord :=
  { r with fields := assocSet r.fields (k.getD "undefined") v }

/-- A `{instance, source}` wrapper as stored in `meta.instances` /
the `instances` map built during `create`/`update`.  For a
`SUBMODEL_ARRAY` bucket the wrapper instead carries an `instances` array and
has no `instance` property (`handle = none`). -/
structure SourceInstanceWrapper where
  handle : Option SourceRecord := none
  elems : List JVal := []
  source : SourceInfo

/-- One step of the wiring an orchestration routine performs, in program
order.  `primaryCallbackFired` marks the point at which the primary source's
asynchronous save callback runs (everything after it is inside that
callback).  `crash` marks a thrown `TypeError` which aborts the remainder of
the routine. -/
inductive WireStep where
  | startOp : WireStep
  | finishOp : WireStep
  | dispatchRead (info : SourceInfo) (query : List (String × JVal)) : WireStep
  | dispatchList (info : SourceInfo) (query : List (String × JVal)) : WireStep
  | dispatchSave (sourceName : String) (record : List (String × JVal)) : WireStep
  | dispatchRemove (sourceName : String) : WireStep
  | bindSource (sourceName : String) : WireStep
  | primaryCallbackFired : WireStep
  | crash : WireStep

/-! ## Write orchestration (Instance.js 996-1223 and 1466-1556) -/

/-- The loop body of `generateDependentSourcesClosure` (Instance.js
1176-1199): for each dependent source instance, set its foreign-key field to
the id generated by the primary save (`instance[source.foreign_key] =
primaryInstance.id`), then start a source op and dispatch its save.  A
`SUBMODEL_ARRAY` wrapper has no `instance`, so the foreign-key assignment
throws a TypeError and aborts the loop (the `if (!instance)` branch below it
is unreachable).  After the loop the synthetic guaranteed operation
`startSourceOp(); finishSourceOp();` is issued. -/
def depLoop (prim : SourceRecord) :
    List (String × SourceInstanceWrapper) → List WireStep
  | [] => [.startOp, .finishOp]
  | (_, w) :: rest =>
    match w.handle with
    | none => [.crash]
    | some r =>
      let r' := r.rawSet w.source.foreign_key ((assocGet prim.fields "id").getD .undef)
      [.startOp, .dispatchSave w.source.name r'.fields] ++ depLoop prim rest

/-- The orchestration of `Instance.prototype.create` (Instance.js
1036-1046) from the point where the source-instance map has been built:
dispatch the primary instance's save; once its callback fires
(`primaryCallbackFired`), the dependent-sources closure binds the primary
result onto the entity and runs `depLoop`. -/
def createTrace (primarySource : SourceInfo) (primaryHandle : SourceRecord)
    (instances : List (String × SourceInstanceWrapper))
    (primaryResult : SourceRecord) : List WireStep :=
  [.dispatchSave primarySource.name primaryHandle.fields,
   .primaryCallbackFired,
   .bindSource primarySource.name] ++ depLoop primaryResult instances

/-- The save loop of `Instance.prototype.update` (Instance.js 1519-1549):
for each bound source instance, assign the foreign key by raw property
write, then save it only if it reports modified fields (`instance.isDirty`);
a wrapper without an `instance` throws at the foreign-key assignment and
aborts the loop, which also prevents the deferred (`setImmediate`)
guaranteed operation from being registered.  When the loop completes, the
guaranteed `startSourceOp(); finishSourceOp();` pair runs last. -/
def updateLoop (selfId : JVal) :
    List (String × SourceInstanceWrapper) → List WireStep
  | [] => [.startOp, .finishOp]
  | (_, w) :: rest =>
    match w.handle with
    | none => [.crash]
    | some r =>
      let r' := r.rawSet w.source.foreign_key selfId
      (if r'.isDirty then [.startOp, .dispatchSave w.source.name r'.fields] else [])
        ++ updateLoop selfId rest

/-- `Instance.prototype.destroy` (Instance.js 1730-1762): every non-primary
bound ORM record is removed concurrently (the primary record's deletion is
deferred into the completion callback), then the guaranteed operation pair
runs.  Each table entry here carries its `is_primary` flag (read from
`meta.mapping.sources.databases[i].tables[j]`) next to its bound record. -/
def destroyWiring
    (dbs : List (String × List (String × (Bool × SourceRecord)))) :
    List WireStep :=
  (dbs.flatMap (fun db =>
    db.2.flatMap (fun t =>
      if t.2.1 then [] else [.startOp, .dispatchRemove t.1])))
    ++ [.startOp, .finishOp]

/-! ## Read orchestration (AbstractModel.js 819-1189) -/

/-- Named interpretations of the opaque configured callbacks a model may
carry: constraint predicates (node-validator checks), node-validator default
failure messages, default-value generator functions, and per-mapping
serializers/deserializers. -/
structure Env where
  checkPasses : String → List JPrim → JVal → Bool := fun _ _ _ => true
  defaultMsg : String → String := fun _ => "Invalid characters"
  defaultGen : String → JPrim := fun _ => .undef
  serialize : String → JVal → JVal := fun _ v => v
  deserialize : String → JVal → JVal := fun _ v => v

/-- A model's configuration as consumed by the read path: its field
definitions, source registry (in registration order), per-view default
options, named per-source query presets, and the submodel properties
(`isSource`, `foreignKey`) set by `setForeignKey`. -/
structure ModelSpec where
  name : String := ""
  definition : List (String × FieldDef) := []
  sources : List (String × SourceInfo) := []
  views : List (String × List (String × JVal)) := []
  query : List (String × List (String × List (String × JVal))) := []
  isSource : Bool := false
  foreignKey : Option String := none

/-- The `views` hash of a definition node (empty for sub-documents, whose
`views` key is treated as a child and never consulted here). -/
def FieldDef.viewsOf : FieldDef → List String
  | .leaf _ _ _ _ _ vs _ _ => vs
  | .arrDef vs _ => vs
  | .sub _ => []

/-- The `mapping` of a definition node. -/
def FieldDef.mappingOf : FieldDef → Option FieldMapping
  | .leaf _ _ _ _ _ _ _ mp => mp
  | .arrDef _ mp => mp
  | .sub _ => none

mutual

/-- `AbstractModel.prototype.shouldReadFromSource` (AbstractModel.js
925-979).  The primary source and the `'all'` view always participate;
otherwise a source participates iff some field mapped to it is in the
requested view, is explicitly listed in `fields`, or is covered by an
`includeAll` flag propagated into a sub-document whose own path was
requested.  Note the source passes `i + '.'` (not `prefix + i + '.'`) as the
prefix of a nested sub-document. -/
def shouldReadFromSource (view : JVal) (includedFields : JVal)
    (source : SourceInfo) (definitions : List (String × FieldDef))
    (pref : String) (includeAll : Bool) : Bool :=
  if JVal.strictEq view (.strv "all") || source.is_primary then true
  else shouldReadLoop view includedFields source definitions pref includeAll
termination_by sizeOf definitions + 1
decreasing_by simp_wf

/-- The field loop of `shouldReadFromSource`. -/
def shouldReadLoop (view : JVal) (includedFields : JVal)
    (source : SourceInfo) : List (String × FieldDef) → String → Bool → Bool
  | [], _, _ => false
  | (i, d) :: rest, pref, includeAll =>
    match d with
    | .sub fields =>
      let shouldIncludeAllSubFields :=
        JVal.truthy includedFields && JVal.truthy (jget includedFields (pref ++ i))
      if shouldReadFromSource view includedFields source fields (i ++ ".")
          shouldIncludeAllSubFields then true
      else shouldReadLoop view includedFields source rest pref includeAll
    | _ =>
      match d.mappingOf with
      | none => shouldReadLoop view includedFields source rest pref includeAll
      | some mp =>
        if mp.source ≠ some source.name then
          shouldReadLoop view includedFields source rest pref includeAll
        else if d.viewsOf.contains (JVal.jsString view)
            || (JVal.truthy includedFields
                && JVal.truthy (jget includedFields (pref ++ i)))
            || includeAll then true
        else shouldReadLoop view includedFields source rest pref includeAll
termination_by l _ _ => sizeOf l
decreasing_by all_goals simp_wf <;> omega

end

/-- `AbstractModel.prototype.getQueryForSource` (AbstractModel.js 708-732):
copy the caller's parameters (skipping those the named preset marks
`__query_ignore_field__`), then overlay the preset's own parameters
(again skipping ignore markers). -/
def getQueryForSource (m : ModelSpec) (queryName : JVal)
    (customParams : List (String × JVal)) (sourceName : String) :
    List (String × JVal) :=
  let defaults : List (String × JVal) :=
    match queryName with
    | .strv qn => ((assocGet m.query qn).bind (fun d => assocGet d sourceName)).getD []
    | _ => []
  let ignore : JVal := .strv "__query_ignore_field__"
  let q1 := customParams.filter
    (fun p => ¬ JVal.strictEq ((assocGet defaults p.1).getD .undef) ignore)
  defaults.foldl
    (fun acc kv => if JVal.strictEq kv.2 ignore then acc else assocSet acc kv.1 kv.2)
    q1

/-- `AbstractModel.prototype.mergeViewOptions` (AbstractModel.js 436-447):
default the view name to `'default'`, then fill each option key absent (or
`undefined`) in the request from the named view's defaults. -/
def mergeViewOptions (m : ModelSpec) (options : List (String × JVal)) :
    List (String × JVal) :=
  let options :=
    if JVal.truthy ((assocGet options "view").getD .undef) then options
    else assocSet options "view" (.strv "default")
  let viewDefaults : List (String × JVal) :=
    match (assocGet options "view").getD .undef with
    | .strv vn => (assocGet m.views vn).getD []
    | _ => []
  viewDefaults.foldl
    (fun acc kv =>
      match assocGet acc kv.1 with
      | some .undef => assocSet acc kv.1 kv.2
      | some _ => acc
      | none => assocSet acc kv.1 kv.2)
    options

/-- The per-source dispatch of `AbstractModel.prototype.read`
(AbstractModel.js 848-915) for one registry entry: skip sources not
participating in the view and `one-to-one-ref` sources (deferred to the
reference-resolution pass); build the query from the `id` parameter (keyed
by the source's foreign key, default `'id'`) and the remaining parameters;
start a source op; then dispatch a single read (one-to-one) or a list query
keyed by `parent_id` (one-to-many).  A participating source with any other
relationship starts an op but dispatches nothing. -/
def readSourceSteps (m : ModelSpec) (params : List (String × JVal))
    (options : List (String × JVal)) (info : SourceInfo) : List WireStep :=
  let view := (assocGet options "view").getD .undef
  let fields := (assocGet options "fields").getD .undef
  if ¬ shouldReadFromSource view fields info m.definition "" false then []
  else if info.relationship = some "one-to-one-ref" then []
  else
    let idKey := info.foreign_key.getD "id"
    let pid := (assocGet params "id").getD .undef
    let q0 : List (String × JVal) :=
      if JVal.truthy pid then [(idKey, pid)] else []
    let q1 := params.foldl
      (fun acc kv =>
        if kv.1 ≠ "parent_id" ∧ kv.1 ≠ "id" ∧ kv.1 ≠ idKey then
          assocSet acc kv.1 kv.2
        else acc)
      q0
    let q2 :=
      if m.isSource ∧ JVal.truthy ((assocGet params "parent_id").getD .undef) then
        assocSet q1 (m.foreignKey.getD "undefined")
          ((assocGet params "parent_id").getD .undef)
      else q1
    [WireStep.startOp] ++
      (if info.relationship = some "one-to-one" then
        [WireStep.dispatchRead info
          (getQueryForSource m ((assocGet options "query").getD .undef) q2 info.name)]
      else if info.relationship = some "one-to-many" then
        let q3 := (q2.filter (fun kv => kv.1 ≠ idKey))
        let q4 := assocSet q3 "parent_id" pid
        [WireStep.dispatchList info
          (getQueryForSource m ((assocGet options "query").getD .undef) q4 info.name)]
      else [])

/-- `AbstractModel.prototype.read` (AbstractModel.js 819-916) as the wiring
it performs: merge view options, then dispatch per registry entry.  No
synthetic guaranteed operation is issued at the end of `read`. -/
def readWiring (m : ModelSpec) (params : List (String × JVal))
    (options0 : List (String × JVal)) : List WireStep :=
  let options := mergeViewOptions m options0
  m.sources.flatMap (fun s => readSourceSteps m params options s.2)

/-- `AbstractModel.getChildWithDotNotation` (AbstractModel.js 241-255):
resolve a dot-notation path against a value, returning `null` when an
intermediate value is not an object. -/
def getChildWithDotNotation (reference : String) (v : JVal) : JVal :=
  go (reference.splitOn ".") v
where
  go : List String → JVal → JVal
  | [], v => v
  | p :: rest, v =>
    match v with
    | .obj _ => go rest (jget v p)
    | .inst _ _ _ _ _ => go rest (jget v p)
    | _ => .nullv

/-- Resolve a dot-notation path in the Field Definition Tree. -/
def getDefnByPath (defn : List (String × FieldDef)) (reference : String) :
    Option FieldDef :=
  go (reference.splitOn ".") defn
where
  go : List String → List (String × FieldDef) → Option FieldDef
  | [], _ => none
  | [p], ds => assocGet ds p
  | p :: rest, ds =>
    match assocGet ds p with
    | some (.sub fields) => go rest fields
    | _ => none

/-- The success path of `generateResolveReferencesCallback`
(AbstractModel.js 1088-1162): for every `one-to-one-ref` source included in
the view whose reference field currently holds a truthy id, start an op and
dispatch a read keyed by `mapping.refAlias` (default `'id'`); finally the
deferred (`setImmediate`) guaranteed operation pair runs.  On an error from
the first pass the closure forwards the error to the caller and performs no
wiring. -/
def resolveReferencesWiring (m : ModelSpec) (options : List (String × JVal))
    (newInstance : JVal) : List WireStep :=
  let view := (assocGet options "view").getD .undef
  let fields := (assocGet options "fields").getD .undef
  (m.sources.flatMap (fun s =>
    let info := s.2
    if ¬ shouldReadFromSource view fields info m.definition "" false then []
    else if info.relationship ≠ some "one-to-one-ref" then []
    else
      let refKey := info.field.getD "undefined"
      let defn := getDefnByPath m.definition refKey
      let idKey :=
        match defn with
        | some d =>
          match d.mappingOf with
          | some mp => mp.refAlias.getD "id"
          | none => "id"
        | none => "id"
      let id := getChildWithDotNotation refKey newInstance
      if ¬ JVal.truthy id then []
      else [WireStep.startOp, WireStep.dispatchRead info [(idKey, id)]]))
    ++ [.startOp, .finishOp]

/-- `generateSourceReadClosure` (AbstractModel.js 990-1014), the completion
handler of a one-to-one source read, acting on the barrier: do nothing if a
sibling already failed the operation; fail on a read error; fail with
`{code: 404, error: "Not found"}` when the primary source returned no
record; otherwise the record is bound onto the instance and the op
finishes. -/
def sourceReadClosure (info : SourceInfo) (s : SourceOpSt) (err : JVal)
    (record : Option SourceRecord) : OpEffect :=
  if s.isFailed then { state := s }
  else if JVal.truthy err then failSourceOp s err
  else if info.is_primary ∧ record.isNone then
    failSourceOp s (.obj [("code", .num 404), ("error", .strv "Not found")])
  else finishSourceOp s

/-! ## Helpers shared by the recursive walkers -/

/-- The own enumerable properties of a value, as iterated by `for (i in x)`
(empty for primitives). -/
def ownFields : JVal → List (String × JVal)
  | .obj fs => fs
  | .inst _ _ _ _ fs => fs
  | _ => []

/-- Is this value a JS function?  (`typeof x === 'function'`.) -/
def isFnVal : JVal → Bool
  | .fn => true
  | _ => false

theorem sizeOf_assocGet {fs : List (String × JVal)} {k : String} {v : JVal}
    (h : assocGet fs k = some v) : sizeOf v < sizeOf fs := by
  induction fs with
  | nil => simp [assocGet] at h
  | cons hd tl ih =>
    rw [assocGet] at h
    by_cases hk : hd.1 = k
    · simp [hk] at h
      cases hd
      simp_all
      omega
    · simp [hk] at h
      have := ih h
      cases hd
      simp_all
      omega

theorem sizeOf_assocGetD {fs : List (String × FieldDef)} {k : String} {d : FieldDef}
    (h : assocGet fs k = some d) : sizeOf d < sizeOf fs := by
  induction fs with
  | nil => simp [assocGet] at h
  | cons hd tl ih =>
    rw [assocGet] at h
    by_cases hk : hd.1 = k
    · simp [hk] at h
      cases hd
      simp_all
      omega
    · simp [hk] at h
      have := ih h
      cases hd
      simp_all
      omega

theorem sizeOf_ownFields (v : JVal) : sizeOf (ownFields v) ≤ sizeOf v := by
  cases v <;> simp [ownFields] <;> omega

theorem one_le_sizeOf_list {α : Type} [SizeOf α] (l : List α) : 1 ≤ sizeOf l := by
  cases l <;> simp <;> omega

theorem sizeOf_jget_of_obj (fs : List (String × JVal)) (k : String) :
    sizeOf (jget (JVal.obj fs) k) < sizeOf (JVal.obj fs) := by
  rw [jget]
  rcases hg : assocGet fs k with _ | w
  · have := one_le_sizeOf_list fs
    simp
    omega
  · have := sizeOf_assocGet hg
    simp
    omega

theorem sizeOf_jget_of_inst (d : List (String × FieldDef))
    (m : List (String × MetaNode)) (e sd : Bool) (fs : List (String × JVal))
    (k : String) :
    sizeOf (jget (JVal.inst d m e sd fs) k) < sizeOf (JVal.inst d m e sd fs) := by
  rw [jget]
  rcases hg : assocGet fs k with _ | w
  · have := one_le_sizeOf_list fs
    simp
    omega
  · have := sizeOf_assocGet hg
    simp
    omega

theorem sizeOf_jget_of_arr (xs : List JVal) (k : String) :
    sizeOf (jget (JVal.arr xs) k) < sizeOf (JVal.arr xs) := by
  have := one_le_sizeOf_list xs
  simp [jget]
  omega

mutual

/-- Nesting depth of live `Instance` objects inside a value: the number of
`inst` constructors on the deepest path.  Used as the primary component of
the termination measure of the validation walker, which recurses from a
document into the submodel instances stored in its arrays. -/
def instDepth : JVal → Nat
  | .arr xs => instDepthL xs
  | .obj fs => instDepthF fs
  | .inst _ _ _ _ fs => instDepthF fs + 1
  | _ => 0

/-- `instDepth` over an array's elements. -/
def instDepthL : List JVal → Nat
  | [] => 0
  | x :: xs => max (instDepth x) (instDepthL xs)

/-- `instDepth` over an object's properties. -/
def instDepthF : List (String × JVal) → Nat
  | [] => 0
  | kv :: fs => max (instDepth kv.2) (instDepthF fs)

end

theorem instDepth_assocGet {fs : List (String × JVal)} {k : String} {v : JVal}
    (h : assocGet fs k = some v) : instDepth v ≤ instDepthF fs := by
  induction fs with
  | nil => simp [assocGet] at h
  | cons hd tl ih =>
    rw [assocGet] at h
    by_cases hk : hd.1 = k
    · simp [hk] at h
      subst h
      rw [instDepthF]
      omega
    · simp [hk] at h
      have := ih h
      rw [instDepthF]
      omega

theorem instDepth_jget (v : JVal) (k : String) :
    instDepth (jget v k) ≤ instDepth v := by
  cases v with
  | obj fs =>
    rw [jget]
    rcases hg : assocGet fs k with _ | w
    · simp [instDepth]
    · have := instDepth_assocGet hg
      simpa [instDepth] using this
  | inst d m e sd fs =>
    rw [jget]
    rcases hg : assocGet fs k with _ | w
    · simp [instDepth]
    · have := instDepth_assocGet hg
      simp [instDepth]
      omega
  | _ => simp [jget, instDepth]

theorem instDepthF_assocSet (fs : List (String × JVal)) (k : String) (v : JVal) :
    instDepthF (assocSet fs k v) ≤ max (instDepthF fs) (instDepth v) := by
  induction fs with
  | nil => simp [assocSet, instDepthF, instDepth]
  | cons hd tl ih =>
    rcases hd with ⟨k', w⟩
    rw [assocSet]
    by_cases hk : k' = k
    · rw [if_pos hk]
      rw [instDepthF, instDepthF]
      simp only
      omega
    · rw [if_neg hk]
      rw [instDepthF, instDepthF]
      simp only at ih ⊢
      omega

theorem instDepth_jget_ownFields (v : JVal) (k : String) :
    instDepth (jget v k) ≤ instDepthF (ownFields v) := by
  cases v with
  | obj fs =>
    rw [jget, ownFields]
    rcases hg : assocGet fs k with _ | w
    · simp [instDepth]
    · simpa using instDepth_assocGet hg
  | inst d m e sd fs =>
    rw [jget, ownFields]
    rcases hg : assocGet fs k with _ | w
    · simp [instDepth]
    · simpa using instDepth_assocGet hg
  | _ => simp [jget, instDepth]

/-- If the written value is no deeper than the value it replaces, a property
write cannot increase the instance-nesting depth. -/
theorem instDepth_jset_le {dv w : JVal} (k : String)
    (h : instDepth w ≤ instDepth (jget dv k)) :
    instDepth (jset dv k w) ≤ instDepth dv := by
  have hown := instDepth_jget_ownFields dv k
  cases dv with
  | obj fs =>
    have h2 := instDepthF_assocSet fs k w
    rw [ownFields] at hown
    simp only [jset, instDepth] at *
    omega
  | inst d m e sd fs =>
    have h2 := instDepthF_assocSet fs k w
    rw [ownFields] at hown
    simp only [jset, instDepth] at *
    omega
  | _ => simp [jset]

theorem instDepth_mem_list {x : JVal} {xs : List JVal} (h : x ∈ xs) :
    instDepth x ≤ instDepthL xs := by
  induction xs with
  | nil => simp at h
  | cons hd tl ih =>
    rcases List.mem_cons.mp h with h | h
    · subst h
      rw [instDepthL]
      omega
    · have := ih h
      rw [instDepthL]
      omega

theorem instDepthF_filter (fs : List (String × JVal)) (p : String × JVal → Bool) :
    instDepthF (fs.filter p) ≤ instDepthF fs := by
  induction fs with
  | nil => simp
  | cons hd tl ih =>
    rw [List.filter_cons]
    by_cases hp : p hd = true
    · rw [if_pos hp, instDepthF, instDepthF]
      omega
    · rw [if_neg hp, instDepthF]
      omega

theorem instDepth_JPrim (p : JPrim) : instDepth p.toJVal = 0 := by
  cases p <;> simp [JPrim.toJVal, instDepth]

/-! ## Serialization walker (Instance.js 873-966) -/

mutual

/-- `Instance.prototype.recursiveDeepCopy` (Instance.js 893-966).  Walks the
own enumerable properties of `src` in order; skips `__meta` and
function-valued properties; computes the inclusion flag from `includeAll`,
the field's view hash, and the explicit `fields` selection (the deprecated
fallback loop compares the view hash's `true` values with `view` under
`===`, so it only fires when the caller passes `view = true`); recurses into
sub-document definitions (deleting the copied sub-object again when the
recursion reported no update); copies arrays element-wise, serializing
contained `Instance` elements via `toObject`; copies every other included
value by reference.  Returns the copied property list and the `didUpdate`
flag.  (When `includeAll` is false and a source property has no definition,
the JS throws reading `definition[i].views`; the model treats the missing
views hash as empty.) -/
def recursiveDeepCopy (src : List (String × JVal))
    (defn : List (String × FieldDef)) (view : JVal) (pref : String)
    (fields : JVal) (includeAll : Bool) : List (String × JVal) × Bool :=
  match src with
  | [] => ([], false)
  | (i, v) :: rest =>
    if i = "__meta" || isFnVal v then
      recursiveDeepCopy rest defn view pref fields includeAll
    else
      let dOpt := assocGet defn i
      let dViews := match dOpt with
        | some d => d.viewsOf
        | none => []
      let shouldInclude :=
        (includeAll || dViews.contains (JVal.jsString view)
          || JVal.truthy (jget fields (pref ++ i)))
        || dViews.any (fun _ => JVal.strictEq (.boolv true) view)
      match hd : dOpt with
      | some (.sub subfields) =>
        let sub := recursiveDeepCopy (ownFields v) subfields view
          (pref ++ i ++ ".") fields shouldInclude
        let rest' := recursiveDeepCopy rest defn view pref fields includeAll
        if sub.2 then ((i, .obj sub.1) :: rest'.1, true) else rest'
      | _ =>
        if ¬ shouldInclude then
          recursiveDeepCopy rest defn view pref fields includeAll
        else
          match hv : v with
          | .arr xs =>
            let copied := xs.attach.map (fun e =>
              match he : e.1 with
              | .inst d _ _ _ fs => JVal.obj (toObjectModel d fs view fields)
              | _ => e.1)
            let rest' := recursiveDeepCopy rest defn view pref fields includeAll
            ((i, .arr copied) :: rest'.1, rest'.2 || ¬ xs.isEmpty)
          | _ =>
            let rest' := recursiveDeepCopy rest defn view pref fields includeAll
            ((i, v) :: rest'.1, true)
termination_by sizeOf src + sizeOf defn
decreasing_by
  all_goals simp_wf
  all_goals try omega
  · -- recursion into a sub-document definition
    have h1 := sizeOf_ownFields v
    have h2 := sizeOf_assocGetD hd
    simp at h2
    omega
  · -- serialization of an Instance stored in an array element
    have h1 := List.sizeOf_lt_of_mem e.2
    rw [he] at h1
    simp at h1
    omega

/-- `Instance.prototype.toObject` (Instance.js 873-880): default the fields
selection to `{}` and the view to `'default'`, set `includeAll` for the
`'all'` view, and deep-copy the instance's own properties. -/
def toObjectModel (defn : List (String × FieldDef))
    (src : List (String × JVal)) (view : JVal) (fields : JVal) :
    List (String × JVal) :=
  let fields := if JVal.truthy fields then fields else .obj []
  let view := if JVal.truthy view then view else .strv "default"
  let includeAll := JVal.strictEq view (.strv "all")
  (recursiveDeepCopy src defn view "" fields includeAll).1
termination_by sizeOf src + sizeOf defn + 1
decreasing_by simp_wf

end

/-! ## Data binding (Instance.js 571-665) -/

/-- An entry of the deprecated per-field mapping hash
(`this.__meta.mapping.fields[i]`), consulted by the submodel-array branch of
`bindDataByDefinition`. -/
structure DeprecatedFieldMapping where
  mtype : Option String := none
  model : Option String := none
deriving Repr, DecidableEq

/-- The per-instance context `bindDataByDefinition` reads besides its
arguments: the deprecated field-mapping hash and the submodel registry
(`this.__meta.sources.models`), each submodel carrying its own definition
and its own such context. -/
inductive ModelCtx where
  | mk (mappingFields : List (String × DeprecatedFieldMapping))
       (models : List (String × (List (String × FieldDef) × ModelCtx))) : ModelCtx

def ModelCtx.mappingFields : ModelCtx → List (String × DeprecatedFieldMapping)
  | .mk mf _ => mf

def ModelCtx.models :
    ModelCtx → List (String × (List (String × FieldDef) × ModelCtx))
  | .mk _ ms => ms

/-- `Instance.prototype.createFieldMetadata` (Instance.js 231-248). -/
def createFieldMetadata : List (String × FieldDef) → List (String × MetaNode)
  | [] => []
  | (i, .sub fs) :: rest =>
    (i, .sub (createFieldMetadata fs)) :: createFieldMetadata rest
  | (i, _) :: rest =>
    (i, MetaNode.leaf false false "" .nullv) :: createFieldMetadata rest

/-- The sub-fields of a metadata node (`metadata[i]` for a sub-document). -/
def metaFieldsOf : Option MetaNode → List (String × MetaNode)
  | some (.sub fs) => fs
  | _ => []

/-- `instance.shouldDelete(b)` on an element of a submodel array. -/
def setShouldDelete (v : JVal) (b : Bool) : JVal :=
  match v with
  | .inst d m h _ fs => .inst d m h b fs
  | _ => v

/-- `metadata[i].hasChanged = b`, keeping the other metadata fields. -/
def metaSetChanged : Option MetaNode → Bool → MetaNode
  | some (.leaf _ he le pv), b => .leaf b he le pv
  | _, b => .leaf b false "" .nullv

/-- The generic field-binding tail of the `bindDataByDefinition` loop body
(Instance.js 650-664): skip falsy data unless all fields are being reset;
skip read-only fields on an update; otherwise write the value and set
`hasChanged = isUpdate` and `previousValue`. -/
def bindPlainField (meta : List (String × MetaNode)) (target : JVal)
    (dv : JVal) (i : String) (readOnly resetAllFields isUpdate : Bool) :
    JVal × List (String × MetaNode) :=
  if ¬ JVal.truthy dv ∧ ¬ resetAllFields then (target, meta)
  else if readOnly ∧ isUpdate then (target, meta)
  else
    let m0 := match assocGet meta i with
      | some (.leaf _ he le _) => MetaNode.leaf isUpdate he le dv
      | _ => MetaNode.leaf isUpdate false "" dv
    (jset target i dv, assocSet meta i m0)

theorem prod_lex_of_lt {a1 a2 b1 b2 : Nat} (h : a1 < a2) :
    Prod.Lex (fun x y => x < y) (fun x y => x < y) (a1, b1) (a2, b2) :=
  Prod.Lex.left _ _ h

theorem prod_lex_of_le_lt {a1 a2 b1 b2 : Nat} (h1 : a1 ≤ a2) (h2 : b1 < b2) :
    Prod.Lex (fun x y => x < y) (fun x y => x < y) (a1, b1) (a2, b2) := by
  rcases Nat.lt_or_ge a1 a2 with h | h
  · exact Prod.Lex.left _ _ h
  · have he : a1 = a2 := le_antisymm h1 h
    subst he
    exact Prod.Lex.right _ h2

theorem sizeOf_getD_undef_le (fs : List (String × JVal)) (k : String) :
    sizeOf ((assocGet fs k).getD JVal.undef) ≤ sizeOf fs := by
  rcases hg : assocGet fs k with _ | w
  · have := one_le_sizeOf_list fs
    simp
    omega
  · have := sizeOf_assocGet hg
    simp
    omega

/-- Last index of `x` in `l` (the deprecated submodel-array lookup hash keeps
the last existing record bound to each id key). -/
def lastIdxOf : List String → String → Option Nat
  | [], _ => none
  | a :: tl, x =>
    match lastIdxOf tl x with
    | some j => some (j + 1)
    | none => if a = x then some 0 else none

mutual

/-- `Instance.prototype.bindDataByDefinition` (Instance.js 586-665), entry
guard: nothing to do when the raw data is not a JS object.  (JS has
`typeof null === 'object'`, so binding `null` data enters the loop and
throws on its first `data[i]` access; the model reports the crash flag
without modelling the partial first write.)  Returns the updated target
value, the updated field metadata, and the crash flag. -/
def bindDataByDefinition (ctx : ModelCtx) (defn : List (String × FieldDef))
    (meta : List (String × MetaNode)) (target : JVal) (data : JVal)
    (resetAllFields isUpdate : Bool) :
    JVal × List (String × MetaNode) × Bool :=
  match data with
  | .undef | .boolv _ | .num _ | .strv _ | .fn => (target, meta, false)
  | .nullv => (target, meta, ¬ defn.isEmpty)
  | .arr xs =>
    -- property reads on an array by field name yield undefined
    bindLoop ctx defn meta target [] resetAllFields isUpdate
  | .obj fs => bindLoop ctx defn meta target fs resetAllFields isUpdate
  | .inst _ _ _ _ fs => bindLoop ctx defn meta target fs resetAllFields isUpdate
termination_by (sizeOf data, sizeOf defn + 1)
decreasing_by
  all_goals simp_wf
  all_goals
    first
      | (apply Prod.Lex.left; have := one_le_sizeOf_list xs; omega)
      | (apply Prod.Lex.left; have := one_le_sizeOf_list fs; omega)

/-- The field loop of `bindDataByDefinition` (Instance.js 594-664), driven
by the definition; `dataFields` are the own properties of the raw data.
The sub-document branch recreates `target[i]` as an empty object and
recurses; the submodel-array branch marks existing sub-records for
deletion, then updates or creates one record per data element; every other
definition binds through the generic tail.  A thrown `TypeError` (missing
deprecated mapping entry or submodel registry entry) aborts the loop,
keeping the writes made so far. -/
def bindLoop (ctx : ModelCtx) :
    List (String × FieldDef) → List (String × MetaNode) → JVal →
    List (String × JVal) → Bool → Bool →
    JVal × List (String × MetaNode) × Bool
  | [], meta, target, _, _, _ => (target, meta, false)
  | (i, d) :: rest, meta, target, dataFields, resetAllFields, isUpdate =>
    match d with
    | .sub subfields =>
      -- target[i] = {}; bind into the fresh object
      let sub := bindDataByDefinition ctx subfields
        (metaFieldsOf (assocGet meta i)) (.obj [])
        ((assocGet dataFields i).getD .undef) resetAllFields isUpdate
      let target1 := jset target i sub.1
      let meta1 := assocSet meta i (.sub sub.2.1)
      if sub.2.2 then (target1, meta1, true)
      else bindLoop ctx rest meta1 target1 dataFields resetAllFields isUpdate
    | .arrDef _ _ =>
      match assocGet ctx.mappingFields i with
      | none =>
        -- this.__meta.mapping.fields[i].type reads a property of undefined
        (target, meta, true)
      | some dm =>
        if dm.mtype = some "submodel_array" then
          match dm.model.bind (fun n => assocGet ctx.models n) with
          | none =>
            -- this.__meta.sources.models[...].model reads a property of undefined
            (target, meta, true)
          | some sm =>
            let existing := match jget target i with
              | .arr xs => xs
              | _ => []
            let marked := existing.map (fun e => setShouldDelete e true)
            let origIds := existing.map (fun e => JVal.jsString (jget e "id"))
            let r :=
              match hde : assocGet dataFields i with
              | some (.arr xs) =>
                bindSubmodelElems ctx sm.1 sm.2 origIds isUpdate xs marked
              | _ => (marked, false)
            let target1 := jset target i (.arr r.1)
            if r.2 then (target1, meta, true)
            else
              let meta1 := assocSet meta i (metaSetChanged (assocGet meta i) isUpdate)
              bindLoop ctx rest meta1 target1 dataFields resetAllFields isUpdate
        else
          -- mapping type is not submodel_array: fall through to the
          -- generic binding tail (an Array definition has no readOnly key)
          let r := bindPlainField meta target ((assocGet dataFields i).getD .undef)
            i false resetAllFields isUpdate
          bindLoop ctx rest r.2 r.1 dataFields resetAllFields isUpdate
    | .leaf _ _ _ _ ro _ _ _ =>
      let r := bindPlainField meta target ((assocGet dataFields i).getD .undef)
        i ro resetAllFields isUpdate
      bindLoop ctx rest r.2 r.1 dataFields resetAllFields isUpdate
termination_by defn _ _ dataFields _ _ => (sizeOf dataFields, sizeOf defn)
decreasing_by
  all_goals simp_wf
  all_goals
    first
      | -- sub-document recursion: data[i] is a value of dataFields (or undefined)
        (apply prod_lex_of_le_lt (sizeOf_getD_undef_le dataFields i); omega)
      | -- submodel-array elements come from a value of dataFields
        (apply prod_lex_of_lt; have := sizeOf_assocGet hde; simp at this; omega)
      | -- loop tail: the definition list shrinks
        (apply prod_lex_of_le_lt (le_refl _); omega)

/-- The element loop of the submodel-array branch (Instance.js 627-643):
coerce each data element's id to a string; when it is a truthy key of the
lookup hash built from the pre-existing records, rebind that record (the
last existing record with that id, since later hash assignments win),
otherwise create a fresh submodel instance and push it.  Either way the
record is unmarked for deletion and bound with the element data. -/
def bindSubmodelElems (ctx : ModelCtx) (sdefn : List (String × FieldDef))
    (sctx : ModelCtx) (origIds : List String) (isUpdate : Bool) :
    List JVal → List JVal → List JVal × Bool
  | [], cur => (cur, false)
  | ed :: rest, cur =>
    let id := JVal.jsString (jget ed "id")
    match (if id ≠ "" then lastIdxOf origIds id else none) with
    | some idx =>
      let tempInst := setShouldDelete (cur.getD idx .undef) false
      let b := instanceBind sctx tempInst ed isUpdate
      if b.2 then ((cur.set idx b.1), true)
      else bindSubmodelElems ctx sdefn sctx origIds isUpdate rest (cur.set idx b.1)
    | none =>
      let fresh := JVal.inst sdefn (createFieldMetadata sdefn) false false []
      let b := instanceBind sctx (setShouldDelete fresh false) ed isUpdate
      if b.2 then (cur ++ [b.1], true)
      else bindSubmodelElems ctx sdefn sctx origIds isUpdate rest (cur ++ [b.1])
termination_by elems _ => (sizeOf elems, 0)
decreasing_by
  all_goals simp_wf
  all_goals (apply prod_lex_of_lt; omega)

/-- `Instance.prototype.bind` (Instance.js 571-573) on a live instance
value: bind raw data against the instance's own definition and metadata
with `resetAllFields = false`.  (Calling `.bind` on a non-instance value is
a TypeError, reported as a crash.) -/
def instanceBind (sctx : ModelCtx) (e : JVal) (d : JVal) (isUpdate : Bool) :
    JVal × Bool :=
  match e with
  | .inst dE mE hE sdE fsE =>
    let r := bindDataByDefinition sctx dE mE (.inst dE mE hE sdE fsE) d false isUpdate
    match r.1 with
    | .inst _ _ _ _ fs' => (.inst dE r.2.1 hE sdE fs', r.2.2)
    | other => (other, r.2.2)
  | _ => (e, true)
termination_by (sizeOf d, sizeOf e)
decreasing_by
  simp_wf
  apply prod_lex_of_le_lt (le_refl _)
  omega

end

/-! ## Validation walker (Instance.js 349-448) -/

/-- `Instance.prototype.ERROR_MSGS` (Instance.js 190-195). -/
def ERROR_MSGS : List (String × String) :=
  [("notNull", "This field is required"),
   ("extraField", "This field is not a part of this model"),
   ("len", "There were too many or too few characters included"),
   ("isIn", "This field is restricted to specified values")]

/-- The required-field message `ERROR_MSGS.notNull`. -/
def notNullMsg : String := "This field is required"

/-- The constraint loop of `doDocumentFieldsHaveError` (Instance.js
417-437): each configured constraint is evaluated through the
node-validator `check` object; the first failure throws, and the caught
message (`ERROR_MSGS[j]`, or node-validator's own default message when the
constraint name has no entry there) stops constraint evaluation for the
field. -/
def runConstraints (env : Env) :
    List (String × List JPrim) → JVal → Option String
  | [], _ => none
  | (j, args) :: rest, v =>
    if env.checkPasses j args v then runConstraints env rest v
    else some ((assocGet ERROR_MSGS j).getD (env.defaultMsg j))

def FieldDef.requiredOf : FieldDef → Bool
  | .leaf _ req _ _ _ _ _ _ => req
  | _ => false

def FieldDef.defaultValueOf : FieldDef → Option JPrim
  | .leaf _ _ dv _ _ _ _ _ => dv
  | _ => none

def FieldDef.defaultGenOf : FieldDef → Option String
  | .leaf _ _ _ dg _ _ _ _ => dg
  | _ => none

def FieldDef.constraintsOf : FieldDef → List (String × List JPrim)
  | .leaf _ _ _ _ _ _ cs _ => cs
  | _ => []

/-- The leaf components of `metadata[i]`
(`hasChanged, hasError, lastError, previousValue`). -/
def metaLeafParts : Option MetaNode → Bool × Bool × String × JVal
  | some (.leaf hc he le pv) => (hc, he, le, pv)
  | _ => (false, false, "", .nullv)

/-- Is the field value unset (`typeof field === 'undefined' || field ===
null`, Instance.js 400)? -/
def isUnsetVal : JVal → Bool
  | .undef => true
  | .nullv => true
  | _ => false

/-- `field = (typeof data === 'object') ? data[i] : null` (Instance.js 396).
JS `typeof` classifies objects, arrays, instances and `null` as
`'object'` (reading `data[i]` of `null` would then throw). -/
def fieldValOf (data : JVal) (i : String) : JVal :=
  match data with
  | .obj _ => jget data i
  | .inst _ _ _ _ _ => jget data i
  | .arr _ => jget data i
  | .nullv => jget data i
  | _ => .nullv

/-- The unknown-field stripping loop of `doDocumentFieldsHaveError`
(Instance.js 441-445): delete every data key with no (truthy) definition,
except `__meta`, `prototype` and function-valued properties. -/
def stripFields (defn : List (String × FieldDef)) (data : JVal) : JVal :=
  match data with
  | .obj fs => .obj (fs.filter (fun kv =>
      (assocGet defn kv.1).isSome || kv.1 == "__meta" || kv.1 == "prototype"
        || isFnVal kv.2))
  | .inst d m h sd fs => .inst d m h sd (fs.filter (fun kv =>
      (assocGet defn kv.1).isSome || kv.1 == "__meta" || kv.1 == "prototype"
        || isFnVal kv.2))
  | v => v

theorem instDepth_arr (xs : List JVal) :
    instDepth (JVal.arr xs) = instDepthL xs := by
  simp [instDepth]

theorem instDepth_stripFields (defn : List (String × FieldDef)) (d : JVal) :
    instDepth (stripFields defn d) ≤ instDepth d := by
  cases d with
  | obj fs =>
    have := instDepthF_filter fs (fun kv =>
      (assocGet defn kv.1).isSome || kv.1 == "__meta" || kv.1 == "prototype"
        || isFnVal kv.2)
    simpa [stripFields, instDepth] using this
  | inst dd m h sd fs =>
    have := instDepthF_filter fs (fun kv =>
      (assocGet defn kv.1).isSome || kv.1 == "__meta" || kv.1 == "prototype"
        || isFnVal kv.2)
    simp [stripFields, instDepth]
    omega
  | _ => simp [stripFields]

mutual

/-- The field loop of `Instance.prototype.doDocumentFieldsHaveError`
(Instance.js 373-438), with explicit state passing for the metadata and
data mutations.  `elemValid` is the `data[i][j].isValid()` call a
submodel-array entry makes on each contained element (tied below to the
instance recursion).  Per definition entry: sub-documents recurse (through
`doDocumentFieldsHaveError`, so nested levels also strip unknown fields);
an Array definition first delegates validity to each contained submodel
instance's `isValid()` (those per-element `metadata[i].hasError = true`
writes are immediately clobbered by the reset at Instance.js 393, so only
the loop-level flag survives; the model computes element validity without
the element-internal metadata writes, which nothing observes here); then
for every non-sub-document entry the field metadata error flag is reset, an
unset field either receives its default (a generator function is invoked
through the environment) or - if `required` with no default - records the
`notNull` message and stops, and otherwise the constraints run with
fail-fast per field. -/
def docFieldsLoop (env : Env) (elemValid : JVal → Bool) :
    List (String × FieldDef) → List (String × MetaNode) → JVal →
    Bool × List (String × MetaNode) × JVal
  | [], meta, data => (false, meta, data)
  | (i, d) :: rest, meta, data =>
    match d with
    | .sub subfields =>
      let sub := doDocumentFieldsHaveError env elemValid subfields
        (metaFieldsOf (assocGet meta i)) (jget data i)
      let r := docFieldsLoop env elemValid rest (assocSet meta i (.sub sub.2.1))
        (jset data i sub.2.2)
      (sub.1 || r.1, r.2)
    | _ =>
      -- submodel-array validation (`definition[i] instanceof Array`)
      let arrBad : Bool :=
        match d with
        | .arrDef _ _ =>
          (match jget data i with
           | .arr xs => xs.any (fun e => ! elemValid e)
           | _ => false)
        | _ => false
      let mp := metaLeafParts (assocGet meta i)
      -- metadata[i].hasError = false (the reset at Instance.js 393)
      let fieldv : JVal := fieldValOf data i
      if isUnsetVal fieldv then
        match d.defaultGenOf with
        | some g =>
          -- defaultValue is a generator function: invoke it
          let r := docFieldsLoop env elemValid rest
            (assocSet meta i (.leaf mp.1 false mp.2.2.1 mp.2.2.2))
            (jset data i (env.defaultGen g).toJVal)
          (arrBad || r.1, r.2)
        | none =>
          match d.defaultValueOf with
          | some dv =>
            let r := docFieldsLoop env elemValid rest
              (assocSet meta i (.leaf mp.1 false mp.2.2.1 mp.2.2.2))
              (jset data i dv.toJVal)
            (arrBad || r.1, r.2)
          | none =>
            if d.requiredOf then
              let r := docFieldsLoop env elemValid rest
                (assocSet meta i (.leaf mp.1 true notNullMsg mp.2.2.2)) data
              ((arrBad || true) || r.1, r.2)
            else
              let r := docFieldsLoop env elemValid rest
                (assocSet meta i (.leaf mp.1 false mp.2.2.1 mp.2.2.2)) data
              (arrBad || r.1, r.2)
      else
        match runConstraints env d.constraintsOf fieldv with
        | none =>
          let r := docFieldsLoop env elemValid rest
            (assocSet meta i (.leaf mp.1 false mp.2.2.1 mp.2.2.2)) data
          (arrBad || r.1, r.2)
        | some msg =>
          let r := docFieldsLoop env elemValid rest
            (assocSet meta i (.leaf mp.1 true msg mp.2.2.2)) data
          ((arrBad || true) || r.1, r.2)
termination_by defn _ _ => sizeOf defn * 2

/-- `Instance.prototype.doDocumentFieldsHaveError` (Instance.js 368-448):
the field loop followed by the unknown-field stripping loop. -/
def doDocumentFieldsHaveError (env : Env) (elemValid : JVal → Bool)
    (defn : List (String × FieldDef)) (meta : List (String × MetaNode))
    (data : JVal) : Bool × List (String × MetaNode) × JVal :=
  let r := docFieldsLoop env elemValid defn meta data
  (r.1, r.2.1, stripFields defn r.2.2)
termination_by sizeOf defn * 2 + 1

end

/-- `data[i][j].isValid()` for a submodel-array element (Instance.js
384-385), with the recursion into nested submodel instances driven by the
instance-nesting depth of the element - exactly the depth of `.isValid()`
recursion the JS performs, so the fuel-exhaustion arm is unreachable from
`instanceIsValidB` (theorem `instanceValidFuel_sufficient` below).  An
element instance is valid iff walking its own definition, metadata and data
finds no error.  (Calling `.isValid` on a non-instance element is a
TypeError; the model treats such an element as valid.) -/
def instanceValidFuel (env : Env) : Nat → JVal → Bool
  | 0, _ => true
  | fuel + 1, e =>
    match e with
    | .inst dE mE _ _ fsE =>
      ! (doDocumentFieldsHaveError env (instanceValidFuel env fuel)
          dE mE (.obj fsE)).1
    | _ => true

/-- `data[i][j].isValid()` with the recursion depth seeded by the element's
own instance-nesting depth. -/
def instanceIsValidB (env : Env) (e : JVal) : Bool :=
  instanceValidFuel env (instDepth e) e

/-- `Instance.prototype.isValid` (Instance.js 349-357) on an instance
value: run the walker over the instance's definition, metadata and own
data, store the outcome in `__meta.hasError`, and return its negation.
Returns the validity verdict together with the updated instance. -/
def isValidModel (env : Env) (e : JVal) : Bool × JVal :=
  match e with
  | .inst defn meta _ sd fs =>
    let r := doDocumentFieldsHaveError env (fun el => instanceIsValidB env el)
      defn meta (.obj fs)
    let fs2 := match r.2.2 with
      | .obj l => l
      | _ => fs
    (! r.1, .inst defn r.2.1 r.1 sd fs2)
  | _ => (true, e)

/-- The field metadata of an instance value. -/
def instMetaOf : JVal → List (String × MetaNode)
  | .inst _ m _ _ _ => m
  | _ => []

mutual

/-- `Instance.prototype.getUpdatedFields` (Instance.js 300-325): walk the
definition; sub-documents recurse and contribute when they report an
update; a leaf contributes its data value iff its metadata `hasChanged`.
Returns `none` for the function's `false` result (no updated field). -/
def getUpdatedFields (fieldMetadata : List (String × MetaNode))
    (defn : List (String × FieldDef)) (data : JVal) :
    Option (List (String × JVal)) :=
  getUpdatedFieldsGo fieldMetadata data defn
termination_by sizeOf defn + 1
decreasing_by simp_wf

/-- The definition loop of `getUpdatedFields`. -/
def getUpdatedFieldsGo (fieldMetadata : List (String × MetaNode))
    (data : JVal) : List (String × FieldDef) → Option (List (String × JVal))
  | [] => none
  | (i, d) :: rest =>
    let tail := getUpdatedFieldsGo fieldMetadata data rest
    match d with
    | .sub subfields =>
      match getUpdatedFields (metaFieldsOf (assocGet fieldMetadata i)) subfields
          (jget data i) with
      | some sub => some ((i, .obj sub) :: tail.getD [])
      | none => tail
    | _ =>
      if (metaLeafParts (assocGet fieldMetadata i)).1 then
        some ((i, jget data i) :: tail.getD [])
      else tail
termination_by l => sizeOf l
decreasing_by
  all_goals simp_wf
  all_goals try omega

end

/-! ## Lookup lemmas shared by the claim proofs -/

theorem assocGet_assocSet_self {α : Type} (fs : List (String × α)) (k : String)
    (v : α) : assocGet (assocSet fs k v) k = some v := by
  induction fs with
  | nil => simp [assocSet, assocGet]
  | cons hd tl ih =>
    rcases hd with ⟨k', w⟩
    rw [assocSet]
    by_cases hk : k' = k
    · rw [if_pos hk, assocGet]
      simp
    · rw [if_neg hk, assocGet]
      simp only [hk, if_false]
      exact ih

theorem assocGet_assocSet_ne {α : Type} (fs : List (String × α))
    {k' k : String} (v : α) (h : k' ≠ k) :
    assocGet (assocSet fs k' v) k = assocGet fs k := by
  induction fs with
  | nil => simp [assocSet, assocGet, h]
  | cons hd tl ih =>
    rcases hd with ⟨k0, w⟩
    rw [assocSet]
    by_cases hk : k0 = k'
    · rw [if_pos hk, assocGet, assocGet]
      subst hk
      simp [h]
    · rw [if_neg hk, assocGet, assocGet]
      by_cases hk2 : k0 = k
      · simp [hk2]
      · simp only [hk2, if_false]
        exact ih

theorem jget_jset_ne (dv : JVal) {i f : String} (w : JVal) (h : i ≠ f) :
    jget (jset dv i w) f = jget dv f := by
  cases dv <;> simp [jset, jget, assocGet_assocSet_ne _ _ h]

theorem fieldValOf_jset_ne (dv : JVal) {i f : String} (w : JVal) (h : i ≠ f) :
    fieldValOf (jset dv i w) f = fieldValOf dv f := by
  cases dv <;> simp [jset, fieldValOf, jget, assocGet_assocSet_ne _ _ h]

/-! ## Boolean observations used by the claim statements -/

/-- Does a wiring trace end with the synthetic guaranteed operation
`startSourceOp(); finishSourceOp();`? -/
def endsWithGuaranteedOp (t : List WireStep) : Bool :=
  match t.reverse with
  | .finishOp :: .startOp :: _ => true
  | _ => false

/-- Is this wiring step the dispatch of a save (`flushChanges`)? -/
def isSaveStep : WireStep → Bool
  | .dispatchSave _ _ => true
  | _ => false

/-- Does a source-instance wrapper hold a record reporting modified fields? -/
def wrapperDirty (w : SourceInstanceWrapper) : Bool :=
  match w.handle with
  | some r => r.isDirty
  | none => false

/-- Is the definition at key `k` a sub-document definition? -/
def isSubDefAt (defn : List (String × FieldDef)) (k : String) : Bool :=
  match assocGet defn k with
  | some (.sub _) => true
  | _ => false

/-- Every property of `src` that is not `__meta`, not a function and not a
sub-document field has an entry in `out`. -/
def includesAllPlainFields (defn : List (String × FieldDef))
    (src out : List (String × JVal)) : Bool :=
  src.all (fun p =>
    p.1 == "__meta" || isFnVal p.2 || isSubDefAt defn p.1
      || (assocGet out p.1).isSome)

/-- Does a value contain, at any depth, a `__meta` key, a function value,
or a live instance (which carries both)? -/
def jvalHasBad : JVal → Bool
  | .fn => true
  | .arr xs => xs.attach.any (fun e => jvalHasBad e.1)
  | .obj fs => fs.attach.any (fun p => p.1.1 == "__meta" || jvalHasBad p.1.2)
  | .inst _ _ _ _ _ => true
  | _ => false
termination_by v => sizeOf v
decreasing_by
  · have h := List.sizeOf_lt_of_mem e.2
    simp_wf
    omega
  · rcases p with ⟨⟨a, b⟩, hp⟩
    have h := List.sizeOf_lt_of_mem hp
    simp_wf
    simp at h
    omega

/-- The walked levels of a serialized object are clean: no direct `__meta`
key, no direct function value, and the copy of a sub-document field
recursively satisfies the same property. -/
def walkedCleanB (defn : List (String × FieldDef)) :
    List (String × JVal) → Bool
  | [] => true
  | (k, w) :: out =>
    (!(k == "__meta") && !isFnVal w &&
      (match hd : assocGet defn k with
       | some (.sub sf) =>
         (match w with
          | .obj fs2 => walkedCleanB sf fs2
          | _ => true)
       | _ => true))
    && walkedCleanB defn out
termination_by out => sizeOf defn + sizeOf out
decreasing_by
  all_goals simp_wf
  all_goals
    first
      | (have h1 := sizeOf_assocGetD hd; simp at h1; omega)
      | omega

/-! # Theorems settling the claims -/

/-! ## C1: the completion callback fires exactly once -/

theorem runSourceOps_failed (evs : List OpEvent) :
    ∀ s : SourceOpSt, s.isFailed = true → (runSourceOps s evs).2 = [] := by
  induction evs with
  | nil => intro s _; simp [runSourceOps]
  | cons e rest ih =>
    intro s hs
    cases e with
    | finish =>
      rw [runSourceOps]
      have heff : (finishSourceOp s).state.isFailed = true ∧
          (finishSourceOp s).calls = [] := by
        rw [finishSourceOp]
        simp [hs]
      simp only [heff.2, List.nil_append]
      exact ih _ heff.1
    | fail err =>
      rw [runSourceOps]
      have heff : (failSourceOp s err).state.isFailed = true ∧
          (failSourceOp s err).calls = [] := by
        rw [failSourceOp]
        simp [hs]
      simp only [heff.2, List.nil_append]
      exact ih _ heff.1

theorem finishSourceOp_pending {c : Int} (er : Option JVal) (h : 0 < c - 1) :
    finishSourceOp ⟨c, true, false, er⟩ = { state := ⟨c - 1, true, false, er⟩ } := by
  rw [finishSourceOp]
  simp
  omega

theorem finishSourceOp_last {c : Int} (er : Option JVal) (h : ¬ 0 < c - 1) :
    finishSourceOp ⟨c, true, false, er⟩ =
      { state := ⟨c - 1, false, false, er⟩, calls := [.success] } := by
  rw [finishSourceOp]
  simp
  omega

theorem failSourceOp_fresh {c : Int} (er : Option JVal) (err : JVal) :
    failSourceOp ⟨c, true, false, er⟩ err =
      { state := ⟨c, false, true, some err⟩,
        calls := [.failure (translateSourceError err)], log := [err] } := by
  rw [failSourceOp]
  simp

theorem runSourceOps_once (evs : List OpEvent) :
    ∀ (c : Int) (er : Option JVal), c = (evs.length : Int) → evs ≠ [] →
      (runSourceOps ⟨c, true, false, er⟩ evs).2.length = 1 := by
  induction evs with
  | nil => intro c er _ hne; exact absurd rfl hne
  | cons e rest ih =>
    intro c er hcount _
    cases e with
    | finish =>
      rw [runSourceOps]
      rcases rest with _ | ⟨e2, rest2⟩
      · -- the last pending sub-operation: the callback fires now
        have hc : ¬ 0 < c - 1 := by
          simp at hcount
          omega
        rw [finishSourceOp_last er hc]
        simp [runSourceOps]
      · -- more sub-operations pending: the count stays positive
        have hc2 : c - 1 = ((e2 :: rest2).length : Int) := by
          simp only [List.length_cons] at hcount ⊢
          push_cast at hcount ⊢
          omega
        have hpos : (0 : Int) < c - 1 := by
          rw [hc2]
          simp only [List.length_cons]
          push_cast
          omega
        rw [finishSourceOp_pending er hpos]
        simp only [List.nil_append]
        exact ih _ er hc2 (by simp)
    | fail err =>
      rw [runSourceOps, failSourceOp_fresh er err]
      have hrest : (runSourceOps ⟨c, false, true, some err⟩ (rest)).2 = [] :=
        runSourceOps_failed rest _ rfl
      simp [hrest]

/-- C1: for a `read` (or any other barrier episode) over N participating
sources — the callback armed, the pending count at N, one completion report
per sub-operation — the completion callback is invoked exactly once over
every interleaving of successes and failures: the first `failSourceOp`
latches `isFailed` and fires the callback, later `failSourceOp` calls
short-circuit, and later `finishSourceOp` calls see the latch (or the
cleared callback) and never fire it again. -/
theorem c1_completion_callback_fires_exactly_once (evs : List OpEvent)
    (hne : evs ≠ []) :
    (runSourceOps
      { count := (evs.length : Int), hasCallback := true, isFailed := false }
      evs).2.length = 1 :=
  runSourceOps_once evs _ none rfl hne

/-- Witness for C1: three sub-operations, the second of which fails after
the first succeeded; the callback fires exactly once. -/
theorem c1_completion_callback_fires_exactly_once_witness :
    ([OpEvent.finish, OpEvent.fail (.obj [("code", .strv "ETIMEDOUT")]),
        OpEvent.finish] : List OpEvent) ≠ [] ∧
    (runSourceOps
      { count := (3 : Int), hasCallback := true, isFailed := false }
      [OpEvent.finish, OpEvent.fail (.obj [("code", .strv "ETIMEDOUT")]),
       OpEvent.finish]).2.length = 1 := by
  constructor
  · simp
  · have h := c1_completion_callback_fires_exactly_once
      [OpEvent.finish, OpEvent.fail (.obj [("code", .strv "ETIMEDOUT")]),
       OpEvent.finish] (by simp)
    simpa using h

/-! ## C5: adapter errors are translated, the original is logged -/

/-- C5: when a sub-operation fails a fresh barrier (callback armed, not yet
failed) with a non-array adapter error `err`, the raw error is logged and
the callback is invoked exactly with the translated error: a
`'ER_DUP_ENTRY'` code yields `{code: 400, error: err.message}`, a `404`
code passes the original error object through unchanged, and every other
code yields `{code: 500, error: 'Internal Server Error'}`. -/
theorem c5_source_error_translated_and_logged (s : SourceOpSt) (err : JVal)
    (hcb : s.hasCallback = true) (hnf : s.isFailed = false)
    (hnarr : ∀ xs, err ≠ JVal.arr xs) :
    (failSourceOp s err).log = [err] ∧
    (failSourceOp s err).state.isFailed = true ∧
    (failSourceOp s err).crashed = false ∧
    (failSourceOp s err).calls = [.failure (translateSourceError err)] ∧
    (JVal.strictEq (jget err "code") (.strv "ER_DUP_ENTRY") = true →
      translateSourceError err =
        .obj [("code", .num 400), ("error", jget err "message")]) ∧
    (JVal.strictEq (jget err "code") (.strv "ER_DUP_ENTRY") = false →
      JVal.strictEq (jget err "code") (.num 404) = true →
      translateSourceError err = err) ∧
    (JVal.strictEq (jget err "code") (.strv "ER_DUP_ENTRY") = false →
      JVal.strictEq (jget err "code") (.num 404) = false →
      translateSourceError err =
        .obj [("code", .num 500), ("error", .strv "Internal Server Error")]) := by
  have hu : unwrapErr err = err := by
    cases err <;> first | (exact absurd rfl (hnarr _)) | simp [unwrapErr]
  have htrans : translateSourceError err =
      (if JVal.strictEq (jget err "code") (.strv "ER_DUP_ENTRY") then
        JVal.obj [("code", .num 400), ("error", jget err "message")]
      else if ¬ JVal.strictEq (jget err "code") (.num 404) then
        JVal.obj [("code", .num 500), ("error", .strv "Internal Server Error")]
      else err) := by
    rw [translateSourceError]
    simp only [hu]
  refine ⟨?_, ?_, ?_, ?_, ?_, ?_, ?_⟩
  · rw [failSourceOp]; simp [hnf]
  · rw [failSourceOp]; simp [hnf]
  · rw [failSourceOp]; simp [hnf, hcb]
  · rw [failSourceOp]; simp [hnf]
  · intro h1
    rw [htrans, if_pos h1]
  · intro h1 h2
    rw [htrans, if_neg (by simp [h1]), if_neg (by simp [h2])]
  · intro h1 h2
    rw [htrans, if_neg (by simp [h1]), if_pos (by simp [h2])]

/-- Witness for C5 at a duplicate-key adapter error. -/
theorem c5_source_error_translated_and_logged_witness :
    (({ count := 2, hasCallback := true, isFailed := false } :
        SourceOpSt).hasCallback = true) ∧
    (failSourceOp { count := 2, hasCallback := true, isFailed := false }
        (.obj [("code", .strv "ER_DUP_ENTRY"), ("message", .strv "dup")])).calls
      = [.failure (translateSourceError
          (.obj [("code", .strv "ER_DUP_ENTRY"), ("message", .strv "dup")]))] :=
  ⟨rfl,
   (c5_source_error_translated_and_logged _ _ rfl rfl
     (by intro xs h; exact JVal.noConfusion h)).2.2.2.1⟩

/-! ## C2: dependent saves run after the primary callback, with the
generated id already set -/

/-- C2: in `create`, the only save dispatched before the primary source's
save callback fires is the primary's own; every dependent save is wired
inside `generateDependentSourcesClosure` (which receives the saved primary
record), and at the moment each dependent save is dispatched its
foreign-key field already holds `primaryInstance.id`. -/
theorem c2_dependent_saves_after_primary_with_id (p : SourceInfo)
    (h : SourceRecord) (insts : List (String × SourceInstanceWrapper))
    (res : SourceRecord) :
    createTrace p h insts res =
      [.dispatchSave p.name h.fields, .primaryCallbackFired,
       .bindSource p.name] ++ depLoop res insts
    ∧ ∀ n fs, WireStep.dispatchSave n fs ∈ depLoop res insts →
        ∃ k w r, (k, w) ∈ insts ∧ w.handle = some r ∧ n = w.source.name ∧
          assocGet fs (w.source.foreign_key.getD "undefined")
            = some ((assocGet res.fields "id").getD .undef) := by
  constructor
  · rfl
  · intro n fs hmem
    induction insts with
    | nil =>
      rw [depLoop] at hmem
      simp at hmem
    | cons hd tl ih =>
      rcases hd with ⟨k0, w0⟩
      rw [depLoop] at hmem
      rcases hh : w0.handle with _ | r0
      · rw [hh] at hmem
        simp at hmem
      · rw [hh] at hmem
        simp only [List.cons_append, List.nil_append, List.mem_cons] at hmem
        rcases hmem with hmem | hmem | hmem
        · exact absurd hmem (by simp)
        · simp only [WireStep.dispatchSave.injEq] at hmem
          refine ⟨k0, w0, r0, List.mem_cons_self _ _, hh, hmem.1, ?_⟩
          rw [hmem.2]
          simp only [SourceRecord.rawSet]
          exact assocGet_assocSet_self _ _ _
        · obtain ⟨k, w, r, hk, hw, hn, hfk⟩ := ih hmem
          exact ⟨k, w, r, List.mem_cons_of_mem _ hk, hw, hn, hfk⟩

/-- Witness for C2: one dependent wrapper; its dispatched save carries the
primary-generated id in its foreign-key field. -/
theorem c2_dependent_saves_after_primary_with_id_witness :
    (WireStep.dispatchSave "comments"
        [("body", JVal.strv "hi"), ("post_id", JVal.num 7)] ∈
      depLoop { fields := [("id", JVal.num 7)] }
        [("comments",
          { handle := some { fields := [("body", JVal.strv "hi")] },
            source := { name := "comments", foreign_key := some "post_id" } })])
    ∧ ∃ k w r,
        (k, w) ∈ [("comments",
          ({ handle := some { fields := [("body", JVal.strv "hi")] },
             source := { name := "comments", foreign_key := some "post_id" } } :
            SourceInstanceWrapper))] ∧
        w.handle = some r ∧ "comments" = w.source.name ∧
        assocGet [("body", JVal.strv "hi"), ("post_id", JVal.num 7)]
            (w.source.foreign_key.getD "undefined")
          = some ((assocGet ([("id", JVal.num 7)] : List (String × JVal))
              "id").getD .undef) := by
  have hmem : WireStep.dispatchSave "comments"
      [("body", JVal.strv "hi"), ("post_id", JVal.num 7)] ∈
      depLoop { fields := [("id", JVal.num 7)] }
        [("comments",
          { handle := some { fields := [("body", JVal.strv "hi")] },
            source := { name := "comments", foreign_key := some "post_id" } })] := by
    rw [depLoop, depLoop]
    simp [SourceRecord.rawSet, assocSet, assocGet, jget]
  refine ⟨hmem, ?_⟩
  exact (c2_dependent_saves_after_primary_with_id
    { name := "posts", is_primary := true } { fields := [] } _ _).2 _ _ hmem

/-! ## C7: no-op writes are elided in update -/

theorem rawSet_isDirty (r : SourceRecord) (k : Option String) (v : JVal) :
    (r.rawSet k v).isDirty = r.isDirty := rfl

/-- C7: in the `update` save loop, saves are dispatched exactly for the
bound source instances reporting modified fields: the number of dispatched
saves equals the number of dirty wrappers (so a sibling with no changed
fields receives zero `flushChanges` calls), and every dispatched save
originates from a wrapper whose record is dirty.  (The foreign-key write
`instance[source.foreign_key] = this.id` is a raw property assignment that
bypasses the adapter's change tracking.) -/
theorem c7_unmodified_sources_not_saved :
    (∀ (selfId : JVal) (insts : List (String × SourceInstanceWrapper)),
      (∀ p ∈ insts, (p.2).handle.isSome = true) →
      (updateLoop selfId insts).countP isSaveStep
        = insts.countP (fun p => wrapperDirty p.2))
    ∧ (∀ (selfId : JVal) (insts : List (String × SourceInstanceWrapper))
        (n : String) (fs : List (String × JVal)),
        WireStep.dispatchSave n fs ∈ updateLoop selfId insts →
        ∃ k w, (k, w) ∈ insts ∧ n = w.source.name ∧ wrapperDirty w = true) := by
  constructor
  · intro selfId insts hall
    induction insts with
    | nil => rw [updateLoop]; simp [isSaveStep]
    | cons hd tl ih =>
      rcases hd with ⟨k0, w0⟩
      rw [updateLoop]
      rcases hh : w0.handle with _ | r0
      · have := hall (k0, w0) (List.mem_cons_self _ _)
        rw [hh] at this
        simp at this
      · have htl := ih (fun p hp => hall p (List.mem_cons_of_mem _ hp))
        simp only [hh, rawSet_isDirty]
        by_cases hdirty : r0.isDirty = true
        · rw [if_pos hdirty]
          simp [List.countP_cons, isSaveStep, wrapperDirty, hh, hdirty, htl]
        · rw [if_neg hdirty]
          simp only [Bool.not_eq_true] at hdirty
          simp [List.countP_cons, isSaveStep, wrapperDirty, hh, hdirty, htl]
  · intro selfId insts n fs hmem
    induction insts with
    | nil =>
      rw [updateLoop] at hmem
      simp at hmem
    | cons hd tl ih =>
      rcases hd with ⟨k0, w0⟩
      rw [updateLoop] at hmem
      rcases hh : w0.handle with _ | r0
      · rw [hh] at hmem
        simp at hmem
      · rw [hh] at hmem
        simp only [rawSet_isDirty] at hmem
        by_cases hdirty : r0.isDirty
        · rw [if_pos hdirty] at hmem
          simp only [List.cons_append, List.nil_append, List.mem_cons] at hmem
          rcases hmem with hmem | hmem | hmem
          · exact absurd hmem (by simp)
          · simp only [WireStep.dispatchSave.injEq] at hmem
            exact ⟨k0, w0, List.mem_cons_self _ _, hmem.1,
              by simp [wrapperDirty, hh, hdirty]⟩
          · obtain ⟨k, w, hk, hn, hw⟩ := ih hmem
            exact ⟨k, w, List.mem_cons_of_mem _ hk, hn, hw⟩
        · rw [if_neg hdirty] at hmem
          simp only [List.nil_append] at hmem
          obtain ⟨k, w, hk, hn, hw⟩ := ih hmem
          exact ⟨k, w, List.mem_cons_of_mem _ hk, hn, hw⟩

/-- Witness for C7: one dirty wrapper and one clean sibling; exactly one
save is dispatched. -/
theorem c7_unmodified_sources_not_saved_witness :
    (∀ p ∈ [("accounts",
        ({ handle := some { fields := [("email", JVal.strv "a@b.c")],
                            changed := ["email"] },
           source := { name := "accounts" } } : SourceInstanceWrapper)),
      ("profiles",
        ({ handle := some { fields := [("bio", JVal.strv "hi")] },
           source := { name := "profiles" } } : SourceInstanceWrapper))],
      (p.2).handle.isSome = true) ∧
    (updateLoop (JVal.num 5)
      [("accounts",
        { handle := some { fields := [("email", JVal.strv "a@b.c")],
                           changed := ["email"] },
          source := { name := "accounts" } }),
       ("profiles",
        { handle := some { fields := [("bio", JVal.strv "hi")] },
          source := { name := "profiles" } })]).countP isSaveStep
      = ([("accounts",
        ({ handle := some { fields := [("email", JVal.strv "a@b.c")],
                            changed := ["email"] },
           source := { name := "accounts" } } : SourceInstanceWrapper)),
       ("profiles",
        ({ handle := some { fields := [("bio", JVal.strv "hi")] },
           source := { name := "profiles" } } : SourceInstanceWrapper))].countP
          (fun p => wrapperDirty p.2)) := by
  constructor
  · intro p hp
    simp only [List.mem_cons, List.mem_singleton] at hp
    rcases hp with rfl | rfl | h
    · rfl
    · rfl
    · simp at h
  · exact c7_unmodified_sources_not_saved.1 _ _ (by
      intro p hp
      simp only [List.mem_cons, List.mem_singleton] at hp
      rcases hp with rfl | rfl | h
      · rfl
      · rfl
      · simp at h)

/-! ## C4: the synthetic guaranteed operation -/

theorem endsWithGuaranteedOp_append_pair (xs : List WireStep) :
    endsWithGuaranteedOp (xs ++ [.startOp, .finishOp]) = true := by
  rw [endsWithGuaranteedOp, List.reverse_append]
  simp

theorem depLoop_guaranteed (res : SourceRecord) :
    ∀ insts : List (String × SourceInstanceWrapper),
      (∀ p ∈ insts, (p.2).handle.isSome = true) →
      ∃ pre, depLoop res insts = pre ++ [.startOp, .finishOp] := by
  intro insts hall
  induction insts with
  | nil => exact ⟨[], by rw [depLoop]; simp⟩
  | cons hd tl ih =>
    rcases hd with ⟨k0, w0⟩
    rcases hh : w0.handle with _ | r0
    · have := hall (k0, w0) (List.mem_cons_self _ _)
      rw [hh] at this
      simp at this
    · obtain ⟨pre, hpre⟩ := ih (fun p hp => hall p (List.mem_cons_of_mem _ hp))
      refine ⟨[.startOp, .dispatchSave w0.source.name
        ((r0.rawSet w0.source.foreign_key
          ((assocGet res.fields "id").getD .undef)).fields)] ++ pre, ?_⟩
      rw [depLoop, hh, hpre]
      simp

theorem updateLoop_guaranteed (selfId : JVal) :
    ∀ insts : List (String × SourceInstanceWrapper),
      (∀ p ∈ insts, (p.2).handle.isSome = true) →
      ∃ pre, updateLoop selfId insts = pre ++ [.startOp, .finishOp] := by
  intro insts hall
  induction insts with
  | nil => exact ⟨[], by rw [updateLoop]; simp⟩
  | cons hd tl ih =>
    rcases hd with ⟨k0, w0⟩
    rcases hh : w0.handle with _ | r0
    · have := hall (k0, w0) (List.mem_cons_self _ _)
      rw [hh] at this
      simp at this
    · obtain ⟨pre, hpre⟩ := ih (fun p hp => hall p (List.mem_cons_of_mem _ hp))
      refine ⟨(if (r0.rawSet w0.source.foreign_key selfId).isDirty then
          [WireStep.startOp, WireStep.dispatchSave w0.source.name
            ((r0.rawSet w0.source.foreign_key selfId).fields)]
        else []) ++ pre, ?_⟩
      rw [updateLoop, hh, hpre]
      simp

/-- C4 (amended): the create dependent-sources closure, the update save
loop (absent a thrown TypeError aborting it), `destroy`, and the
reference-resolution pass each issue the synthetic guaranteed operation
`startSourceOp(); finishSourceOp();` after wiring their sub-operations —
but `read` does not (see the counterexample). -/
theorem c4_amended_guaranteed_op_in_write_and_reference_paths :
    (∀ dbs, endsWithGuaranteedOp (destroyWiring dbs) = true)
    ∧ (∀ m opts inst,
        endsWithGuaranteedOp (resolveReferencesWiring m opts inst) = true)
    ∧ (∀ (res : SourceRecord) insts,
        (∀ p ∈ insts, (p.2).handle.isSome = true) →
        endsWithGuaranteedOp (depLoop res insts) = true)
    ∧ (∀ (selfId : JVal) insts,
        (∀ p ∈ insts, (p.2).handle.isSome = true) →
        endsWithGuaranteedOp (updateLoop selfId insts) = true) := by
  refine ⟨?_, ?_, ?_, ?_⟩
  · intro dbs
    rw [destroyWiring]
    exact endsWithGuaranteedOp_append_pair _
  · intro m opts inst
    rw [resolveReferencesWiring]
    exact endsWithGuaranteedOp_append_pair _
  · intro res insts hall
    obtain ⟨pre, hpre⟩ := depLoop_guaranteed res insts hall
    rw [hpre]
    exact endsWithGuaranteedOp_append_pair _
  · intro selfId insts hall
    obtain ⟨pre, hpre⟩ := updateLoop_guaranteed selfId insts hall
    rw [hpre]
    exact endsWithGuaranteedOp_append_pair _

/-- Witness for C4 (amended), applying the update conjunct to a concrete
bound instance map. -/
theorem c4_amended_guaranteed_op_witness :
    (∀ p ∈ [("accounts",
        ({ handle := some { fields := [] },
           source := { name := "accounts" } } : SourceInstanceWrapper))],
      (p.2).handle.isSome = true) ∧
    endsWithGuaranteedOp (updateLoop (JVal.num 9)
      [("accounts",
        { handle := some { fields := [] },
          source := { name := "accounts" } })]) = true := by
  constructor
  · intro p hp
    simp only [List.mem_singleton] at hp
    rw [hp]
    rfl
  · exact c4_amended_guaranteed_op_in_write_and_reference_paths.2.2.2 _ _ (by
      intro p hp
      simp only [List.mem_singleton] at hp
      rw [hp]
      rfl)

theorem shouldReadFromSource_all (f : JVal) (s : SourceInfo)
    (d : List (String × FieldDef)) (p : String) (a : Bool) :
    shouldReadFromSource (.strv "all") f s d p a = true := by
  rw [shouldReadFromSource]
  simp [JVal.strictEq]

/-- A minimal single-source model: one primary one-to-one source, empty
definition tree, no views or query presets. -/
def fixReadModel : ModelSpec :=
  { name := "posts",
    definition := [],
    sources := [("posts",
      { name := "posts", relationship := some "one-to-one",
        is_primary := true })] }

/-- Counterexample to C4 as stated: `AbstractModel.prototype.read` issues no
synthetic guaranteed operation after wiring its per-source dispatches — the
wiring of `read({id: 5}, {view: 'all'})` on a one-source model ends in the
dispatched read, not in a `startOp`/`finishOp` pair. -/
theorem c4_read_lacks_guaranteed_op_counterexample :
    endsWithGuaranteedOp
      (readWiring fixReadModel [("id", JVal.num 5)]
        [("view", JVal.strv "all")]) = false
    ∧ readWiring fixReadModel [("id", JVal.num 5)]
        [("view", JVal.strv "all")]
      = [WireStep.startOp,
         WireStep.dispatchRead
           { name := "posts", relationship := some "one-to-one",
             is_primary := true }
           [("id", JVal.num 5)]] := by
  have hw : readWiring fixReadModel [("id", JVal.num 5)]
      [("view", JVal.strv "all")]
      = [WireStep.startOp,
         WireStep.dispatchRead
           { name := "posts", relationship := some "one-to-one",
             is_primary := true }
           [("id", JVal.num 5)]] := by
    rw [readWiring]
    simp only [fixReadModel, mergeViewOptions, readSourceSteps]
    simp [assocGet, assocSet, JVal.strictEq, JVal.truthy, getQueryForSource,
      shouldReadFromSource_all]
  exact ⟨by rw [hw]; rfl, hw⟩

/-! ## C3: primary-null 404 and the dispatch of secondary reads -/

/-- A two-source model: primary `accounts` and a secondary one-to-one
`profiles` source. -/
def fix2Model : ModelSpec :=
  { name := "users",
    definition := [],
    sources := [
      ("accounts",
        { name := "accounts", relationship := some "one-to-one",
          is_primary := true }),
      ("profiles",
        { name := "profiles", relationship := some "one-to-one" })] }

/-- Counterexample to C3 as stated: in `read({id: 5}, {view: 'all'})` all
participating source reads are dispatched concurrently up front, so the
secondary `profiles` read is dispatched regardless of what the primary
source later returns — the claim's "no secondary-source read is dispatched"
clause fails. -/
theorem c3_secondary_read_dispatched_counterexample :
    WireStep.dispatchRead
        { name := "profiles", relationship := some "one-to-one" }
        [("id", JVal.num 5)]
      ∈ readWiring fix2Model [("id", JVal.num 5)]
          [("view", JVal.strv "all")] := by
  rw [readWiring]
  simp only [fix2Model, mergeViewOptions, readSourceSteps]
  simp [assocGet, assocSet, JVal.strictEq, JVal.truthy, getQueryForSource,
    shouldReadFromSource_all]

/-- C3 (amended): when the primary source's read returns no record (and no
sibling failed first), the completion handler fails the barrier with exactly
`{code: 404, error: "Not found"}`; but secondary sources are not excluded
from the initial dispatch — the only sources `read` skips are the
`one-to-one-ref` reference sources (deferred to the reference-resolution
pass): every read dispatched by the wiring targets a `one-to-one` source,
secondary or not (see the counterexample for a dispatched secondary). -/
theorem c3_amended_primary_null_404_and_refs_deferred :
    (∀ (info : SourceInfo) (s : SourceOpSt),
      s.isFailed = false → s.hasCallback = true → info.is_primary = true →
      (sourceReadClosure info s .nullv none).calls
        = [.failure (.obj [("code", .num 404), ("error", .strv "Not found")])])
    ∧ (∀ (m : ModelSpec) (params options : List (String × JVal))
        (info : SourceInfo) (q : List (String × JVal)),
        WireStep.dispatchRead info q ∈ readWiring m params options →
        info.relationship = some "one-to-one") := by
  constructor
  · intro info s hsf hcb hp
    rw [sourceReadClosure]
    rw [if_neg (by simp [hsf])]
    rw [if_neg (by simp [JVal.truthy])]
    rw [if_pos (by simp [hp])]
    rw [failSourceOp]
    simp only [hsf, Bool.false_eq_true, if_false]
    have ht : translateSourceError
        (.obj [("code", .num 404), ("error", .strv "Not found")])
        = .obj [("code", .num 404), ("error", .strv "Not found")] := by
      rw [translateSourceError]
      simp [unwrapErr, jget, assocGet, JVal.strictEq]
    simp [ht]
  · intro m params options info q hmem
    rw [readWiring] at hmem
    simp only [List.mem_flatMap] at hmem
    obtain ⟨src, _, hstep⟩ := hmem
    simp only [readSourceSteps] at hstep
    split at hstep
    · simp at hstep
    · split at hstep
      · simp at hstep
      · simp only [List.cons_append, List.nil_append, List.mem_cons] at hstep
        rcases hstep with h | hstep
        · exact absurd h (by simp)
        · split at hstep
          · next hrel =>
            simp only [List.mem_singleton, WireStep.dispatchRead.injEq] at hstep
            rw [hstep.1]
            exact hrel
          · split at hstep
            · simp at hstep
            · simp at hstep

/-- Witness for C3 (amended): a fresh one-pending-op barrier and a primary
source; the closure reports exactly the 404 error. -/
theorem c3_amended_primary_null_404_witness :
    (⟨1, true, false, none⟩ : SourceOpSt).isFailed = false
    ∧ (⟨1, true, false, none⟩ : SourceOpSt).hasCallback = true
    ∧ ({ name := "accounts", is_primary := true } : SourceInfo).is_primary
        = true
    ∧ (sourceReadClosure { name := "accounts", is_primary := true }
          ⟨1, true, false, none⟩ .nullv none).calls
        = [.failure (.obj [("code", .num 404), ("error", .strv "Not found")])] :=
  ⟨rfl, rfl, rfl,
    c3_amended_primary_null_404_and_refs_deferred.1
      { name := "accounts", is_primary := true }
      ⟨1, true, false, none⟩ rfl rfl rfl⟩

/-! ## C8: which fields toObject('all', {}) includes -/

theorem assocGet_cons_isSome {out : List (String × JVal)} {j : String}
    (k : String) (w : JVal) (h : (assocGet out j).isSome = true) :
    (assocGet ((k, w) :: out) j).isSome = true := by
  rw [assocGet]
  by_cases hk : k = j
  · rw [if_pos hk]
    rfl
  · rw [if_neg hk]
    exact h

theorem includesAllPlainFields_cons_out (defn : List (String × FieldDef))
    (src out : List (String × JVal)) (k : String) (w : JVal)
    (h : includesAllPlainFields defn src out = true) :
    includesAllPlainFields defn src ((k, w) :: out) = true := by
  simp only [includesAllPlainFields, List.all_eq_true] at h ⊢
  intro p hp
  have hh := h p hp
  simp only [Bool.or_eq_true] at hh ⊢
  rcases hh with ((h1 | h2) | h3) | h4
  · exact Or.inl (Or.inl (Or.inl h1))
  · exact Or.inl (Or.inl (Or.inr h2))
  · exact Or.inl (Or.inr h3)
  · exact Or.inr (assocGet_cons_isSome k w h4)

theorem includesAllPlainFields_cons_src (defn : List (String × FieldDef))
    (i : String) (v : JVal) (tl out : List (String × JVal)) :
    includesAllPlainFields defn ((i, v) :: tl) out
      = ((i == "__meta" || isFnVal v || isSubDefAt defn i
            || (assocGet out i).isSome)
         && includesAllPlainFields defn tl out) := rfl

theorem includesAllPlain_step (defn : List (String × FieldDef))
    (i : String) (v w : JVal) (tl out : List (String × JVal))
    (h : includesAllPlainFields defn tl out = true) :
    includesAllPlainFields defn ((i, v) :: tl) ((i, w) :: out) = true := by
  rw [includesAllPlainFields_cons_src, Bool.and_eq_true]
  refine ⟨?_, includesAllPlainFields_cons_out _ _ _ _ _ h⟩
  simp [assocGet]

theorem includesAllPlain_skip (defn : List (String × FieldDef))
    (i : String) (v : JVal) (tl out : List (String × JVal))
    (hc : (i == "__meta" || isFnVal v || isSubDefAt defn i) = true)
    (h : includesAllPlainFields defn tl out = true) :
    includesAllPlainFields defn ((i, v) :: tl) out = true := by
  rw [includesAllPlainFields_cons_src, Bool.and_eq_true]
  exact ⟨by simp only [Bool.or_eq_true] at hc ⊢; tauto, h⟩

theorem rdc_cons_shape (defn : List (String × FieldDef)) (view : JVal)
    (pref : String) (fields : JVal) (i : String) (v : JVal)
    (tl : List (String × JVal)) :
    ((i == "__meta" || isFnVal v || isSubDefAt defn i) = true
      ∧ (recursiveDeepCopy ((i, v) :: tl) defn view pref fields true).1
          = (recursiveDeepCopy tl defn view pref fields true).1)
    ∨ ∃ w, (recursiveDeepCopy ((i, v) :: tl) defn view pref fields true).1
          = (i, w) :: (recursiveDeepCopy tl defn view pref fields true).1 := by
  by_cases harr : ∃ xs, v = JVal.arr xs
  · obtain ⟨xs, rfl⟩ := harr
    rw [recursiveDeepCopy.eq_2]
    by_cases hskip : (decide (i = "__meta") || isFnVal (JVal.arr xs)) = true
    · rw [if_pos hskip]
      refine Or.inl ⟨?_, rfl⟩
      simp only [Bool.or_eq_true, decide_eq_true_eq, beq_iff_eq] at hskip ⊢
      tauto
    · rw [if_neg hskip]
      rcases hdef : assocGet defn i with _ | d
      · simp only [hdef]
        rw [if_neg (by simp)]
        exact Or.inr ⟨_, rfl⟩
      · cases d with
        | sub sf =>
          simp only [hdef]
          split
          · exact Or.inr ⟨_, rfl⟩
          · exact Or.inl ⟨by simp [isSubDefAt, hdef], rfl⟩
        | leaf ft rq dv dg ro vs cs mp =>
          simp only [hdef]
          rw [if_neg (by simp)]
          exact Or.inr ⟨_, rfl⟩
        | arrDef vs mp =>
          simp only [hdef]
          rw [if_neg (by simp)]
          exact Or.inr ⟨_, rfl⟩
  · rw [recursiveDeepCopy.eq_3 _ _ _ _ _ _ _ _ (fun xs h => harr ⟨xs, h⟩)]
    by_cases hskip : (decide (i = "__meta") || isFnVal v) = true
    · rw [if_pos hskip]
      refine Or.inl ⟨?_, rfl⟩
      simp only [Bool.or_eq_true, decide_eq_true_eq, beq_iff_eq] at hskip ⊢
      tauto
    · rw [if_neg hskip]
      rcases hdef : assocGet defn i with _ | d
      · simp only [hdef]
        rw [if_neg (by simp)]
        exact Or.inr ⟨_, rfl⟩
      · cases d with
        | sub sf =>
          simp only [hdef]
          split
          · exact Or.inr ⟨_, rfl⟩
          · exact Or.inl ⟨by simp [isSubDefAt, hdef], rfl⟩
        | leaf ft rq dv dg ro vs cs mp =>
          simp only [hdef]
          rw [if_neg (by simp)]
          exact Or.inr ⟨_, rfl⟩
        | arrDef vs mp =>
          simp only [hdef]
          rw [if_neg (by simp)]
          exact Or.inr ⟨_, rfl⟩

theorem rdc_includeAll_plain (defn : List (String × FieldDef)) (view : JVal)
    (fields : JVal) :
    ∀ (src : List (String × JVal)) (pref : String),
      includesAllPlainFields defn src
        (recursiveDeepCopy src defn view pref fields true).1 = true := by
  intro src
  induction src with
  | nil =>
    intro pref
    rw [recursiveDeepCopy]
    rfl
  | cons hd tl ih =>
    intro pref
    rcases hd with ⟨i, v⟩
    rcases rdc_cons_shape defn view pref fields i v tl with ⟨hcond, heq⟩ | ⟨w, hw⟩
    · rw [heq]
      exact includesAllPlain_skip _ _ _ _ _ hcond (ih pref)
    · rw [hw]
      exact includesAllPlain_step _ _ _ _ _ _ (ih pref)

/-- C8 (amended): `toObject('all', {})` includes every own, non-function,
non-`__meta` property of the instance that is not a sub-document field —
for plain fields, mapped or not, the `'all'` view overrides any `views`
restriction.  A sub-document field, however, can be dropped wholesale when
its recursive copy reports no update (see the counterexample), so the
claim's "every mapped, non-virtual field" does not hold for fields nested
under a sub-document. -/
theorem c8_amended_all_view_includes_plain_fields :
    ∀ (defn : List (String × FieldDef)) (src : List (String × JVal)),
      includesAllPlainFields defn src
        (toObjectModel defn src (.strv "all") (.obj [])) = true := by
  intro defn src
  rw [toObjectModel]
  have ht : (JVal.truthy (.obj []) : Bool) = true := rfl
  have hv : (JVal.truthy (.strv "all") : Bool) = true := by
    simp [JVal.truthy]
  have hs : JVal.strictEq (.strv "all") (.strv "all") = true := by
    simp [JVal.strictEq]
  simp only [ht, hv, hs, if_true]
  exact rdc_includeAll_plain defn _ _ src ""

/-- A mapped, non-virtual array leaf (the nested field of the C8
counterexample's sub-document). -/
def mappedArrLeaf : FieldDef :=
  .leaf (some "ARRAY") false none none false ["all"] []
    (some { source := some "accounts" })

/-- Counterexample to C8 as stated: an instance whose sub-document `x`
holds only the mapped field `arr` with an empty-array value serializes under
`toObject('all', {})` to an object with NO `x` property at all — the
sub-document's recursive copy reports `didUpdate = false` (an empty array
does not set the flag), so `delete obj[i]` drops the whole sub-document and
the mapped, non-virtual field `x.arr` is missing from the output. -/
theorem c8_subdocument_dropped_counterexample :
    toObjectModel [("x", FieldDef.sub [("arr", mappedArrLeaf)])]
        [("x", JVal.obj [("arr", JVal.arr [])])]
        (.strv "all") (.obj []) = []
    ∧ (FieldDef.mappingOf mappedArrLeaf).isSome = true := by
  constructor
  · rw [toObjectModel]
    simp only [JVal.truthy, JVal.strictEq]
    rw [recursiveDeepCopy]
    simp [assocGet, ownFields, isFnVal, mappedArrLeaf, recursiveDeepCopy]
    intro xs h
    cases h
  · rfl

/-! ## C10: what the serialization walker filters, level by level -/

theorem rdc_cons_clean_shape (defn : List (String × FieldDef)) (view : JVal)
    (pref : String) (fields : JVal) (ia : Bool) (i : String) (v : JVal)
    (tl : List (String × JVal)) :
    ((recursiveDeepCopy ((i, v) :: tl) defn view pref fields ia).1
        = (recursiveDeepCopy tl defn view pref fields ia).1)
    ∨ (∃ sf b, assocGet defn i = some (.sub sf)
        ∧ ¬ i = "__meta"
        ∧ (recursiveDeepCopy ((i, v) :: tl) defn view pref fields ia).1
            = (i, .obj (recursiveDeepCopy (ownFields v) sf view
                  (pref ++ i ++ ".") fields b).1)
               :: (recursiveDeepCopy tl defn view pref fields ia).1)
    ∨ (∃ w, ¬ i = "__meta" ∧ isFnVal w = false
        ∧ isSubDefAt defn i = false
        ∧ (recursiveDeepCopy ((i, v) :: tl) defn view pref fields ia).1
            = (i, w) :: (recursiveDeepCopy tl defn view pref fields ia).1) := by
  by_cases harr : ∃ xs, v = JVal.arr xs
  · obtain ⟨xs, rfl⟩ := harr
    rw [recursiveDeepCopy.eq_2]
    by_cases hskip : (decide (i = "__meta") || isFnVal (JVal.arr xs)) = true
    · rw [if_pos hskip]
      exact Or.inl rfl
    · rw [if_neg hskip]
      simp only [Bool.or_eq_true, decide_eq_true_eq, not_or,
        Bool.not_eq_true] at hskip
      rcases hdef : assocGet defn i with _ | d
      · simp only [hdef]
        split
        · exact Or.inl rfl
        · refine Or.inr (Or.inr ⟨_, hskip.1, ?_, by simp [isSubDefAt, hdef], rfl⟩)
          rfl
      · cases d with
        | sub sf =>
          simp only [hdef]
          split
          · exact Or.inr (Or.inl ⟨sf, _, rfl, hskip.1, rfl⟩)
          · exact Or.inl rfl
        | leaf ft rq dv dg ro vs cs mp =>
          simp only [hdef]
          split
          · exact Or.inl rfl
          · refine Or.inr (Or.inr ⟨_, hskip.1, ?_, by simp [isSubDefAt, hdef], rfl⟩)
            rfl
        | arrDef vs mp =>
          simp only [hdef]
          split
          · exact Or.inl rfl
          · refine Or.inr (Or.inr ⟨_, hskip.1, ?_, by simp [isSubDefAt, hdef], rfl⟩)
            rfl
  · rw [recursiveDeepCopy.eq_3 _ _ _ _ _ _ _ _ (fun xs h => harr ⟨xs, h⟩)]
    by_cases hskip : (decide (i = "__meta") || isFnVal v) = true
    · rw [if_pos hskip]
      exact Or.inl rfl
    · rw [if_neg hskip]
      simp only [Bool.or_eq_true, decide_eq_true_eq, not_or,
        Bool.not_eq_true] at hskip
      rcases hdef : assocGet defn i with _ | d
      · simp only [hdef]
        split
        · exact Or.inl rfl
        · exact Or.inr (Or.inr ⟨v, hskip.1, hskip.2,
            by simp [isSubDefAt, hdef], rfl⟩)
      · cases d with
        | sub sf =>
          simp only [hdef]
          split
          · exact Or.inr (Or.inl ⟨sf, _, rfl, hskip.1, rfl⟩)
          · exact Or.inl rfl
        | leaf ft rq dv dg ro vs cs mp =>
          simp only [hdef]
          split
          · exact Or.inl rfl
          · exact Or.inr (Or.inr ⟨v, hskip.1, hskip.2,
              by simp [isSubDefAt, hdef], rfl⟩)
        | arrDef vs mp =>
          simp only [hdef]
          split
          · exact Or.inl rfl
          · exact Or.inr (Or.inr ⟨v, hskip.1, hskip.2,
              by simp [isSubDefAt, hdef], rfl⟩)

theorem rdc_walkedClean :
    ∀ (n : Nat) (src : List (String × JVal)) (defn : List (String × FieldDef))
      (view : JVal) (pref : String) (fields : JVal) (ia : Bool),
      sizeOf src + sizeOf defn ≤ n →
      walkedCleanB defn (recursiveDeepCopy src defn view pref fields ia).1
        = true := by
  intro n
  induction n with
  | zero =>
    intro src defn view pref fields ia hsz
    have h1 := one_le_sizeOf_list src
    have h2 := one_le_sizeOf_list defn
    omega
  | succ n ih =>
    intro src defn view pref fields ia hsz
    cases src with
    | nil =>
      rw [recursiveDeepCopy]
      rw [walkedCleanB]
    | cons hd tl =>
      rcases hd with ⟨i, v⟩
      have hcons : sizeOf tl + 2 ≤ sizeOf ((i, v) :: tl) := by
        simp only [List.cons.sizeOf_spec, Prod.mk.sizeOf_spec]
        have := one_le_sizeOf_list tl
        omega
      have htl := ih tl defn view pref fields ia (by omega)
      rcases rdc_cons_clean_shape defn view pref fields ia i v tl with
        heq | ⟨sf, b, hdef, hni, hout⟩ | ⟨w, hni, hnf, hns, hout⟩
      · rw [heq]
        exact htl
      · have hsf := sizeOf_assocGetD hdef
        simp only [FieldDef.sub.sizeOf_spec] at hsf
        have hv : sizeOf (ownFields v) ≤ sizeOf v := sizeOf_ownFields v
        have hvc : sizeOf v + 2 ≤ sizeOf ((i, v) :: tl) := by
          simp only [List.cons.sizeOf_spec, Prod.mk.sizeOf_spec]
          have := one_le_sizeOf_list tl
          omega
        have hsub := ih (ownFields v) sf view (pref ++ i ++ ".") fields b
          (by omega)
        rw [hout, walkedCleanB]
        simp only [Bool.and_eq_true]
        refine ⟨⟨⟨by simp [hni], rfl⟩, ?_⟩, htl⟩
        split
        · next sf1 heq =>
          rw [hdef] at heq
          cases heq
          exact hsub
        · rfl
      · rw [hout, walkedCleanB]
        rcases hdefn : assocGet defn i with _ | d
        · simp [hni, hnf, htl, hdefn]
        · cases d with
          | sub sf =>
            rw [isSubDefAt, hdefn] at hns
            simp at hns
          | leaf ft rq dv dg ro vs cs mp =>
            simp [hni, hnf, htl, hdefn]
          | arrDef vs mp =>
            simp [hni, hnf, htl, hdefn]

/-- C10 (amended): every level of the object `toObject` produces that the
walker itself visited is clean — no direct `__meta` key, no direct
function-valued property, and the copy of each sub-document field
recursively satisfies the same — but because any value that is not a
sub-document is copied by reference, material below a leaf value is not
filtered, and a `__meta` key or function nested inside a plain object value
survives into the output (see the counterexample). -/
theorem c10_amended_walked_levels_clean :
    ∀ (defn : List (String × FieldDef)) (src : List (String × JVal))
      (view fields : JVal),
      walkedCleanB defn (toObjectModel defn src view fields) = true := by
  intro defn src view fields
  rw [toObjectModel]
  exact rdc_walkedClean (sizeOf src + sizeOf defn) src defn _ "" _ _
    (le_refl _)

theorem jvalHasBad_obj_mem {fs : List (String × JVal)} {k : String} {w : JVal}
    (hmem : (k, w) ∈ fs) (h : (k == "__meta" || jvalHasBad w) = true) :
    jvalHasBad (.obj fs) = true := by
  rw [jvalHasBad, List.any_eq_true]
  exact ⟨⟨(k, w), hmem⟩, List.mem_attach _ _, h⟩

/-- Counterexample to C10 as stated: a plain (leaf-defined) field whose
value is an object that itself carries a `__meta` property is copied by
reference, so the serialized output of `toObject('all', {})` contains a
`'__meta'` key at nesting depth 2. -/
theorem c10_deep_meta_retained_counterexample :
    jvalHasBad (.obj (toObjectModel
        [("x", FieldDef.leaf none false none none false [] [] none)]
        [("x", JVal.obj [("__meta", JVal.num 1)])]
        (.strv "all") (.obj []))) = true := by
  have hout : toObjectModel
      [("x", FieldDef.leaf none false none none false [] [] none)]
      [("x", JVal.obj [("__meta", JVal.num 1)])]
      (.strv "all") (.obj [])
      = [("x", JVal.obj [("__meta", JVal.num 1)])] := by
    rw [toObjectModel]
    simp only [JVal.truthy, JVal.strictEq]
    rw [recursiveDeepCopy]
    simp [assocGet, isFnVal, recursiveDeepCopy]
    intro xs h
    cases h
  rw [hout]
  have h2 : jvalHasBad (.obj [("__meta", JVal.num 1)]) = true :=
    @jvalHasBad_obj_mem [("__meta", JVal.num 1)] "__meta" (JVal.num 1)
      (List.mem_singleton.mpr rfl) (by simp)
  exact @jvalHasBad_obj_mem [("x", JVal.obj [("__meta", JVal.num 1)])] "x"
    (JVal.obj [("__meta", JVal.num 1)])
    (List.mem_singleton.mpr rfl) (by simp [h2])

/-! ## C9: read-only fields under an update bind -/

theorem bindPlainField_ne (meta : List (String × MetaNode)) (target dv : JVal)
    {i f : String} (ro ra up : Bool) (h : i ≠ f) :
    jget (bindPlainField meta target dv i ro ra up).1 f = jget target f
    ∧ assocGet (bindPlainField meta target dv i ro ra up).2 f
        = assocGet meta f := by
  rw [bindPlainField]
  split
  · exact ⟨rfl, rfl⟩
  · split
    · exact ⟨rfl, rfl⟩
    · exact ⟨jget_jset_ne _ _ h, assocGet_assocSet_ne _ _ h⟩

theorem assocGet_nodup_mem {α : Type} :
    ∀ {l : List (String × α)} {k : String} {v d : α},
      (l.map Prod.fst).Nodup → assocGet l k = some v → (k, d) ∈ l → d = v := by
  intro l
  induction l with
  | nil =>
    intro k v d _ _ hmem
    simp at hmem
  | cons hd tl ih =>
    intro k v d hnd hget hmem
    rcases hd with ⟨k0, v0⟩
    simp only [List.map_cons, List.nodup_cons] at hnd
    rw [assocGet] at hget
    rcases List.mem_cons.mp hmem with h | h
    · rw [Prod.mk.injEq] at h
      obtain ⟨h1, h2⟩ := h
      subst h1
      rw [if_pos rfl] at hget
      rw [Option.some.injEq] at hget
      rw [h2, hget]
    · by_cases hk : k0 = k
      · subst hk
        exact absurd (List.mem_map_of_mem Prod.fst h) hnd.1
      · rw [if_neg hk] at hget
        exact ih hnd.2 hget h

theorem bindLoop_readonly_preserved (ctx : ModelCtx) (f : String) :
    ∀ (defn : List (String × FieldDef)) (meta : List (String × MetaNode))
      (target : JVal) (dataFields : List (String × JVal)),
      (∀ d, (f, d) ∈ defn →
        ∃ ft rq dv dg vs cs mp, d = FieldDef.leaf ft rq dv dg true vs cs mp) →
      jget (bindLoop ctx defn meta target dataFields false true).1 f
          = jget target f
      ∧ assocGet (bindLoop ctx defn meta target dataFields false true).2.1 f
          = assocGet meta f := by
  intro defn
  induction defn with
  | nil =>
    intro meta target dataFields _
    rw [bindLoop.eq_def]
    exact ⟨rfl, rfl⟩
  | cons hd rest ih =>
    intro meta target dataFields hro
    rcases hd with ⟨i, d⟩
    have hroR : ∀ d', (f, d') ∈ rest →
        ∃ ft rq dv dg vs cs mp, d' = FieldDef.leaf ft rq dv dg true vs cs mp :=
      fun d' hd' => hro d' (List.mem_cons_of_mem _ hd')
    rw [bindLoop.eq_def]
    simp only []
    by_cases hif : i = f
    · subst hif
      obtain ⟨ft, rq, dv, dg, vs, cs, mp, rfl⟩ := hro d (List.mem_cons_self _ _)
      simp only []
      have hr : bindPlainField meta target ((assocGet dataFields i).getD .undef)
          i true false true = (target, meta) := by
        rw [bindPlainField]
        split
        · rfl
        · rw [if_pos ⟨rfl, rfl⟩]
      rw [hr]
      exact ih meta target dataFields hroR
    · cases d with
      | sub subfields =>
        simp only []
        split
        · exact ⟨jget_jset_ne _ _ hif, assocGet_assocSet_ne _ _ hif⟩
        · exact ⟨(ih _ _ _ hroR).1.trans (jget_jset_ne _ _ hif),
            (ih _ _ _ hroR).2.trans (assocGet_assocSet_ne _ _ hif)⟩
      | arrDef vs mp =>
        simp only []
        rcases hm : assocGet ctx.mappingFields i with _ | dm
        · simp only [hm]
          exact ⟨by trivial, by trivial⟩
        · simp only [hm]
          split
          · rcases hmm : dm.model.bind (fun n => assocGet ctx.models n) with _ | sm
            · simp only [hmm]
              exact ⟨by trivial, by trivial⟩
            · simp only [hmm]
              split
              · exact ⟨jget_jset_ne _ _ hif, rfl⟩
              · exact ⟨(ih _ _ _ hroR).1.trans (jget_jset_ne _ _ hif),
                  (ih _ _ _ hroR).2.trans (assocGet_assocSet_ne _ _ hif)⟩
          · exact ⟨(ih _ _ _ hroR).1.trans
                (bindPlainField_ne _ _ _ _ _ _ hif).1,
              (ih _ _ _ hroR).2.trans
                (bindPlainField_ne _ _ _ _ _ _ hif).2⟩
      | leaf ft rq dv dg ro vs cs mp =>
        simp only []
        exact ⟨(ih _ _ _ hroR).1.trans (bindPlainField_ne _ _ _ _ _ _ hif).1,
          (ih _ _ _ hroR).2.trans (bindPlainField_ne _ _ _ _ _ _ hif).2⟩

/-- C9 (amended): for a bind performed as an update, a top-level field whose
definition is a read-only leaf is preserved: its value in the bound target
and its metadata entry (in particular `hasChanged`) are exactly what they
were before the bind, regardless of the caller's data.  A read-only field
nested inside a sub-document, however, is NOT preserved: the sub-document
container is recreated as an empty object on every bind (see the
counterexample). -/
theorem c9_amended_top_level_readonly_preserved
    (ctx : ModelCtx) (defn : List (String × FieldDef))
    (meta : List (String × MetaNode)) (target data : JVal) (f : String)
    (ft : Option String) (rq : Bool) (dv : Option JPrim) (dg : Option String)
    (vs : List String) (cs : List (String × List JPrim))
    (mp : Option FieldMapping)
    (hnd : (defn.map Prod.fst).Nodup)
    (hget : assocGet defn f = some (.leaf ft rq dv dg true vs cs mp)) :
    jget (bindDataByDefinition ctx defn meta target data false true).1 f
        = jget target f
    ∧ assocGet
        (bindDataByDefinition ctx defn meta target data false true).2.1 f
        = assocGet meta f := by
  have hro : ∀ d, (f, d) ∈ defn →
      ∃ ft rq dv dg vs cs mp, d = FieldDef.leaf ft rq dv dg true vs cs mp :=
    fun d hd => ⟨ft, rq, dv, dg, vs, cs, mp, assocGet_nodup_mem hnd hget hd⟩
  cases data <;> rw [bindDataByDefinition] <;>
    first
      | exact ⟨rfl, rfl⟩
      | exact bindLoop_readonly_preserved ctx f defn meta target _ hro

/-- Witness for C9 (amended): a one-field model with a read-only `name`
leaf; an update bind supplying a new value leaves both the stored value and
the field metadata untouched. -/
theorem c9_amended_top_level_readonly_witness :
    ((([("name", FieldDef.leaf none false none none true [] [] none)] :
        List (String × FieldDef)).map Prod.fst).Nodup
      ∧ assocGet [("name", FieldDef.leaf none false none none true [] [] none)]
          "name" = some (FieldDef.leaf none false none none true [] [] none))
    ∧ jget (bindDataByDefinition (.mk [] [])
          [("name", FieldDef.leaf none false none none true [] [] none)]
          [("name", MetaNode.leaf false false "" .nullv)]
          (.obj [("name", JVal.strv "orig")])
          (.obj [("name", JVal.strv "hacked")]) false true).1 "name"
        = jget (.obj [("name", JVal.strv "orig")]) "name"
    ∧ assocGet (bindDataByDefinition (.mk [] [])
          [("name", FieldDef.leaf none false none none true [] [] none)]
          [("name", MetaNode.leaf false false "" .nullv)]
          (.obj [("name", JVal.strv "orig")])
          (.obj [("name", JVal.strv "hacked")]) false true).2.1 "name"
        = assocGet [("name", MetaNode.leaf false false "" .nullv)] "name" := by
  refine ⟨⟨by simp, rfl⟩, ?_, ?_⟩
  · exact (c9_amended_top_level_readonly_preserved (.mk [] [])
      [("name", FieldDef.leaf none false none none true [] [] none)]
      [("name", MetaNode.leaf false false "" .nullv)]
      (.obj [("name", JVal.strv "orig")])
      (.obj [("name", JVal.strv "hacked")]) "name"
      none false none none [] [] none (by simp) rfl).1
  · exact (c9_amended_top_level_readonly_preserved (.mk [] [])
      [("name", FieldDef.leaf none false none none true [] [] none)]
      [("name", MetaNode.leaf false false "" .nullv)]
      (.obj [("name", JVal.strv "orig")])
      (.obj [("name", JVal.strv "hacked")]) "name"
      none false none none [] [] none (by simp) rfl).2

/-- Counterexample to C9 as stated: an update bind with EMPTY caller data
wipes a read-only field nested in a sub-document — `bindDataByDefinition`
recreates `target['profile']` as `{}` before recursing, so the read-only
`profile.nick` value `"v"` is gone from the bound target. -/
theorem c9_nested_readonly_wiped_counterexample :
    (bindDataByDefinition (.mk [] [])
        [("profile", FieldDef.sub
          [("nick", FieldDef.leaf none false none none true [] [] none)])]
        [("profile", MetaNode.sub
          [("nick", MetaNode.leaf false false "" JVal.nullv)])]
        (.obj [("profile", JVal.obj [("nick", JVal.strv "v")])])
        (.obj []) false true).1
      = .obj [("profile", JVal.obj [])]
    ∧ jget (jget (.obj [("profile", JVal.obj [("nick", JVal.strv "v")])])
          "profile") "nick"
      = JVal.strv "v" := by
  constructor
  · simp [bindDataByDefinition, bindLoop, metaFieldsOf, assocGet, assocSet,
      jset, jget]
  · rfl

/-! ## C6: a required field with no default, left unset -/

theorem docFieldsLoop_meta_ne (env : Env) (ev : JVal → Bool) (f : String) :
    ∀ (defn : List (String × FieldDef)) (meta : List (String × MetaNode))
      (data : JVal),
      f ∉ defn.map Prod.fst →
      assocGet (docFieldsLoop env ev defn meta data).2.1 f
        = assocGet meta f := by
  intro defn
  induction defn with
  | nil =>
    intro meta data _
    rw [docFieldsLoop]
  | cons hd rest ih =>
    intro meta data hf
    rcases hd with ⟨i, d⟩
    simp only [List.map_cons, List.mem_cons, not_or] at hf
    have hif : i ≠ f := fun h => hf.1 h.symm
    have hfr := hf.2
    cases d with
    | sub subfields =>
      rw [docFieldsLoop.eq_def]
      simp only []
      exact (ih _ _ hfr).trans (assocGet_assocSet_ne _ _ hif)
    | leaf ft rq dvv dg ro vs cs mp =>
      rw [docFieldsLoop.eq_def]
      simp only []
      repeat' split
      all_goals exact (ih _ _ hfr).trans (assocGet_assocSet_ne _ _ hif)
    | arrDef vs mp =>
      rw [docFieldsLoop.eq_def]
      simp only []
      repeat' split
      all_goals exact (ih _ _ hfr).trans (assocGet_assocSet_ne _ _ hif)

theorem docFieldsLoop_required_unset_flag (env : Env) (ev : JVal → Bool)
    (f : String) (ft : Option String) (ro : Bool) (vs : List String)
    (cs : List (String × List JPrim)) (mp : Option FieldMapping) :
    ∀ (defn : List (String × FieldDef)),
      assocGet defn f = some (.leaf ft true none none ro vs cs mp) →
      ∀ (meta : List (String × MetaNode)) (data : JVal),
        isUnsetVal (fieldValOf data f) = true →
        (docFieldsLoop env ev defn meta data).1 = true := by
  intro defn
  induction defn with
  | nil =>
    intro hsome
    simp [assocGet] at hsome
  | cons hd rest ih =>
    intro hsome meta data hunset
    rcases hd with ⟨i, d⟩
    rw [assocGet] at hsome
    by_cases hif : i = f
    · rw [if_pos hif] at hsome
      rw [Option.some.injEq] at hsome
      subst hsome
      subst hif
      rw [docFieldsLoop.eq_def]
      simp only []
      rw [if_pos hunset]
      simp only [FieldDef.defaultGenOf, FieldDef.defaultValueOf,
        FieldDef.requiredOf]
      simp
    · rw [if_neg hif] at hsome
      have ihh := ih hsome
      cases d with
      | sub subfields =>
        rw [docFieldsLoop.eq_def]
        simp only []
        have h2 := ihh (assocSet meta i (.sub (doDocumentFieldsHaveError env ev
            subfields (metaFieldsOf (assocGet meta i)) (jget data i)).2.1))
          (jset data i (doDocumentFieldsHaveError env ev subfields
            (metaFieldsOf (assocGet meta i)) (jget data i)).2.2)
          (by rw [fieldValOf_jset_ne _ _ hif]; exact hunset)
        simp [h2]
      | leaf ft2 rq2 dv2 dg2 ro2 vs2 cs2 mp2 =>
        rw [docFieldsLoop.eq_def]
        simp only []
        repeat' split
        all_goals simp [ihh, hunset, fieldValOf_jset_ne, hif]
      | arrDef vs2 mp2 =>
        rw [docFieldsLoop.eq_def]
        simp only []
        repeat' split
        all_goals simp [ihh, hunset, fieldValOf_jset_ne, hif]

theorem docFieldsLoop_required_unset_meta (env : Env) (ev : JVal → Bool)
    (f : String) (ft : Option String) (ro : Bool) (vs : List String)
    (cs : List (String × List JPrim)) (mp : Option FieldMapping) :
    ∀ (defn : List (String × FieldDef)),
      (defn.map Prod.fst).Nodup →
      assocGet defn f = some (.leaf ft true none none ro vs cs mp) →
      ∀ (meta : List (String × MetaNode)) (data : JVal),
        isUnsetVal (fieldValOf data f) = true →
        ∃ hc pv, assocGet (docFieldsLoop env ev defn meta data).2.1 f
          = some (.leaf hc true notNullMsg pv) := by
  intro defn
  induction defn with
  | nil =>
    intro _ hsome
    simp [assocGet] at hsome
  | cons hd rest ih =>
    intro hnd hsome meta data hunset
    rcases hd with ⟨i, d⟩
    simp only [List.map_cons, List.nodup_cons] at hnd
    rw [assocGet] at hsome
    by_cases hif : i = f
    · rw [if_pos hif] at hsome
      rw [Option.some.injEq] at hsome
      subst hsome
      subst hif
      rw [docFieldsLoop.eq_def]
      simp only []
      rw [if_pos hunset]
      simp only [FieldDef.defaultGenOf, FieldDef.defaultValueOf,
        FieldDef.requiredOf]
      rw [if_pos trivial]
      refine ⟨(metaLeafParts (assocGet meta i)).1,
        (metaLeafParts (assocGet meta i)).2.2.2, ?_⟩
      rw [docFieldsLoop_meta_ne env ev i rest _ _ hnd.1]
      exact assocGet_assocSet_self _ _ _
    · rw [if_neg hif] at hsome
      have ihh := ih hnd.2 hsome
      cases d with
      | sub subfields =>
        rw [docFieldsLoop.eq_def]
        simp only []
        refine ihh _ _ ?_
        rw [fieldValOf_jset_ne _ _ hif]
        exact hunset
      | leaf ft2 rq2 dv2 dg2 ro2 vs2 cs2 mp2 =>
        rw [docFieldsLoop.eq_def]
        simp only []
        repeat' split
        all_goals refine ihh _ _ ?_
        all_goals
          first
            | exact hunset
            | (rw [fieldValOf_jset_ne _ _ hif]; exact hunset)
      | arrDef vs2 mp2 =>
        rw [docFieldsLoop.eq_def]
        simp only []
        repeat' split
        all_goals refine ihh _ _ ?_
        all_goals
          first
            | exact hunset
            | (rw [fieldValOf_jset_ne _ _ hif]; exact hunset)

/-- C6: for a field definition with `required: true` and no default value
(no `defaultValue` scalar and no generator), validating an instance in
which that field is unset (`undefined` or `null`) returns `isValid() =
false`, and the field's metadata records the required-field error: its
`hasError` flag is set and its `lastError` is exactly the `notNull`
message, with no constraint ever evaluated for the field (the `required`
branch records the message and moves on before the constraint loop). -/
theorem c6_required_unset_field_fails_validation
    (env : Env) (defn : List (String × FieldDef))
    (meta : List (String × MetaNode)) (hE sd : Bool)
    (fs : List (String × JVal)) (f : String) (ft : Option String) (ro : Bool)
    (vs : List String) (cs : List (String × List JPrim))
    (mp : Option FieldMapping)
    (hnd : (defn.map Prod.fst).Nodup)
    (hget : assocGet defn f = some (.leaf ft true none none ro vs cs mp))
    (hunset : isUnsetVal ((assocGet fs f).getD .undef) = true) :
    (isValidModel env (.inst defn meta hE sd fs)).1 = false
    ∧ ∃ hc pv,
        assocGet (instMetaOf
            (isValidModel env (.inst defn meta hE sd fs)).2) f
          = some (.leaf hc true notNullMsg pv) := by
  have hunset2 : isUnsetVal (fieldValOf (.obj fs) f) = true := hunset
  have hflag := docFieldsLoop_required_unset_flag env
    (fun el => instanceIsValidB env el) f ft ro vs cs mp defn hget meta
    (.obj fs) hunset2
  have hmeta := docFieldsLoop_required_unset_meta env
    (fun el => instanceIsValidB env el) f ft ro vs cs mp defn hnd hget meta
    (.obj fs) hunset2
  constructor
  · rw [isValidModel]
    simp only []
    rw [doDocumentFieldsHaveError]
    simp only []
    simp [hflag]
  · rw [isValidModel]
    simp only []
    rw [doDocumentFieldsHaveError]
    simp only []
    simpa [instMetaOf] using hmeta

/-- Witness for C6: a one-field model whose required `email` leaf has no
default; the instance's data does not set it, validation fails and the
field's metadata carries the `notNull` message. -/
theorem c6_required_unset_witness :
    ((([("email", FieldDef.leaf none true none none false [] [] none)] :
        List (String × FieldDef)).map Prod.fst).Nodup
      ∧ assocGet [("email", FieldDef.leaf none true none none false [] [] none)]
          "email" = some (FieldDef.leaf none true none none false [] [] none)
      ∧ isUnsetVal ((assocGet ([] : List (String × JVal)) "email").getD .undef)
          = true)
    ∧ (isValidModel {} (.inst
          [("email", FieldDef.leaf none true none none false [] [] none)]
          [("email", MetaNode.leaf false false "" .nullv)] false false [])).1
        = false
    ∧ ∃ hc pv,
        assocGet (instMetaOf (isValidModel {} (.inst
            [("email", FieldDef.leaf none true none none false [] [] none)]
            [("email", MetaNode.leaf false false "" .nullv)] false false [])).2)
          "email" = some (.leaf hc true notNullMsg pv) := by
  refine ⟨⟨by simp, rfl, rfl⟩, ?_⟩
  exact c6_required_unset_field_fails_validation {}
    [("email", FieldDef.leaf none true none none false [] [] none)]
    [("email", MetaNode.leaf false false "" .nullv)] false false []
    "email" none false [] [] none (by simp) rfl rfl

/-! ## Adequacy of the depth-seeded validation recursion

The walker's element-validity callback is tied to the instance recursion
through a depth argument; the theorems below show the depth seed is exact:
the walker never deepens the data it returns, the loop's outcome depends on
the callback only at values no deeper than the data, and therefore
`instanceValidFuel` is independent of its depth argument whenever that
argument is at least the element's instance-nesting depth - the
fuel-exhaustion arm is unreachable from `instanceIsValidB`. -/

theorem docFieldsLoop_data_depth (env : Env) (ev : JVal → Bool) :
    ∀ (n : Nat) (defn : List (String × FieldDef)), sizeOf defn ≤ n →
      ∀ (meta : List (String × MetaNode)) (data : JVal),
      instDepth (docFieldsLoop env ev defn meta data).2.2
        ≤ instDepth data := by
  intro n
  induction n with
  | zero =>
    intro defn hsz
    have := one_le_sizeOf_list defn
    omega
  | succ n ih =>
    intro defn hsz meta data
    cases defn with
    | nil =>
      rw [docFieldsLoop]
    | cons hd rest =>
      rcases hd with ⟨i, d⟩
      have hszr : sizeOf rest ≤ n := by
        simp only [List.cons.sizeOf_spec, Prod.mk.sizeOf_spec] at hsz
        omega
      cases d with
      | sub subfields =>
        have hszs : sizeOf subfields ≤ n := by
          simp only [List.cons.sizeOf_spec, Prod.mk.sizeOf_spec,
            FieldDef.sub.sizeOf_spec] at hsz
          omega
        rw [docFieldsLoop.eq_def]
        simp only []
        have hsub : instDepth (doDocumentFieldsHaveError env ev subfields
            (metaFieldsOf (assocGet meta i)) (jget data i)).2.2
            ≤ instDepth (jget data i) := by
          rw [doDocumentFieldsHaveError]
          simp only []
          exact le_trans (instDepth_stripFields _ _) (ih subfields hszs _ _)
        exact le_trans (ih rest hszr _ _) (instDepth_jset_le i hsub)
      | leaf ft rq dvv dg ro vs cs mp =>
        rw [docFieldsLoop.eq_def]
        simp only []
        repeat' split
        all_goals
          first
            | exact ih rest hszr _ _
            | exact le_trans (ih rest hszr _ _) (instDepth_jset_le i
                (by rw [instDepth_JPrim]; exact Nat.zero_le _))
      | arrDef vs mp =>
        rw [docFieldsLoop.eq_def]
        simp only []
        repeat' split
        all_goals
          first
            | exact ih rest hszr _ _
            | exact le_trans (ih rest hszr _ _) (instDepth_jset_le i
                (by rw [instDepth_JPrim]; exact Nat.zero_le _))

theorem list_any_congr {α : Type} {p q : α → Bool} :
    ∀ {l : List α}, (∀ a ∈ l, p a = q a) → l.any p = l.any q := by
  intro l
  induction l with
  | nil =>
    intro _
    rfl
  | cons hd tl ih =>
    intro h
    simp only [List.any_cons]
    rw [h hd (List.mem_cons_self _ _),
      ih (fun a ha => h a (List.mem_cons_of_mem _ ha))]

theorem docFieldsLoop_congr (env : Env) :
    ∀ (n : Nat) (defn : List (String × FieldDef)), sizeOf defn ≤ n →
      ∀ (ev1 ev2 : JVal → Bool) (meta : List (String × MetaNode))
        (data : JVal),
      (∀ e, instDepth e ≤ instDepth data → ev1 e = ev2 e) →
      docFieldsLoop env ev1 defn meta data
        = docFieldsLoop env ev2 defn meta data := by
  intro n
  induction n with
  | zero =>
    intro defn hsz
    have := one_le_sizeOf_list defn
    omega
  | succ n ih =>
    intro defn hsz ev1 ev2 meta data hev
    cases defn with
    | nil =>
      rw [docFieldsLoop, docFieldsLoop]
    | cons hd rest =>
      rcases hd with ⟨i, d⟩
      have hszr : sizeOf rest ≤ n := by
        simp only [List.cons.sizeOf_spec, Prod.mk.sizeOf_spec] at hsz
        omega
      cases d with
      | sub subfields =>
        have hszs : sizeOf subfields ≤ n := by
          simp only [List.cons.sizeOf_spec, Prod.mk.sizeOf_spec,
            FieldDef.sub.sizeOf_spec] at hsz
          omega
        conv_lhs => rw [docFieldsLoop.eq_def]
        conv_rhs => rw [docFieldsLoop.eq_def]
        simp only []
        have hdoc : doDocumentFieldsHaveError env ev1 subfields
            (metaFieldsOf (assocGet meta i)) (jget data i)
            = doDocumentFieldsHaveError env ev2 subfields
              (metaFieldsOf (assocGet meta i)) (jget data i) := by
          conv_lhs => rw [doDocumentFieldsHaveError]
          conv_rhs => rw [doDocumentFieldsHaveError]
          rw [ih subfields hszs ev1 ev2 _ _
            (fun e he => hev e (le_trans he (instDepth_jget data i)))]
        rw [hdoc]
        have hb : instDepth (doDocumentFieldsHaveError env ev2 subfields
            (metaFieldsOf (assocGet meta i)) (jget data i)).2.2
            ≤ instDepth (jget data i) := by
          rw [doDocumentFieldsHaveError]
          simp only []
          exact le_trans (instDepth_stripFields _ _)
            (docFieldsLoop_data_depth env ev2 n subfields hszs _ _)
        rw [ih rest hszr ev1 ev2 _ _
          (fun e he => hev e (le_trans he (instDepth_jset_le i hb)))]
      | leaf ft rq dvv dg ro vs cs mp =>
        conv_lhs => rw [docFieldsLoop.eq_def]
        conv_rhs => rw [docFieldsLoop.eq_def]
        simp only []
        have h0 : ∀ M : List (String × MetaNode),
            docFieldsLoop env ev1 rest M data
              = docFieldsLoop env ev2 rest M data :=
          fun M => ih rest hszr ev1 ev2 M data hev
        have hg : ∀ (M : List (String × MetaNode)) (p : JPrim),
            docFieldsLoop env ev1 rest M (jset data i p.toJVal)
              = docFieldsLoop env ev2 rest M (jset data i p.toJVal) :=
          fun M p => ih rest hszr ev1 ev2 M _
            (fun e he => hev e (le_trans he (instDepth_jset_le i
              (by rw [instDepth_JPrim]; exact Nat.zero_le _))))
        simp only [h0, hg]
      | arrDef vs mp =>
        conv_lhs => rw [docFieldsLoop.eq_def]
        conv_rhs => rw [docFieldsLoop.eq_def]
        simp only []
        have h0 : ∀ M : List (String × MetaNode),
            docFieldsLoop env ev1 rest M data
              = docFieldsLoop env ev2 rest M data :=
          fun M => ih rest hszr ev1 ev2 M data hev
        have hg : ∀ (M : List (String × MetaNode)) (p : JPrim),
            docFieldsLoop env ev1 rest M (jset data i p.toJVal)
              = docFieldsLoop env ev2 rest M (jset data i p.toJVal) :=
          fun M p => ih rest hszr ev1 ev2 M _
            (fun e he => hev e (le_trans he (instDepth_jset_le i
              (by rw [instDepth_JPrim]; exact Nat.zero_le _))))
        have harrEq : (match jget data i with
              | JVal.arr xs => xs.any fun e => ! ev1 e
              | _ => false)
            = (match jget data i with
              | JVal.arr xs => xs.any fun e => ! ev2 e
              | _ => false) := by
          cases hjg : jget data i with
          | arr xs =>
            refine list_any_congr (fun e hm => ?_)
            have hb : instDepth e ≤ instDepth data :=
              le_trans (instDepth_mem_list hm)
                (le_trans (le_of_eq (instDepth_arr xs).symm)
                  (le_trans (le_of_eq (congrArg instDepth hjg).symm)
                    (instDepth_jget data i)))
            rw [hev e hb]
          | undef => rfl
          | nullv => rfl
          | boolv b => rfl
          | num m2 => rfl
          | strv s => rfl
          | fn => rfl
          | obj fs => rfl
          | inst d2 m2 h2 sd2 fs2 => rfl
        simp only [harrEq, h0, hg]

theorem instanceValidFuel_congr (env : Env) :
    ∀ (fuel1 fuel2 : Nat) (e : JVal),
      instDepth e ≤ fuel1 → instDepth e ≤ fuel2 →
      instanceValidFuel env fuel1 e = instanceValidFuel env fuel2 e := by
  intro fuel1
  induction fuel1 with
  | zero =>
    intro fuel2 e h1 _
    cases e with
    | inst dE mE hE sdE fsE =>
      simp only [instDepth] at h1
      omega
    | undef => cases fuel2 <;> simp [instanceValidFuel]
    | nullv => cases fuel2 <;> simp [instanceValidFuel]
    | boolv b => cases fuel2 <;> simp [instanceValidFuel]
    | num m2 => cases fuel2 <;> simp [instanceValidFuel]
    | strv s => cases fuel2 <;> simp [instanceValidFuel]
    | fn => cases fuel2 <;> simp [instanceValidFuel]
    | arr xs => cases fuel2 <;> simp [instanceValidFuel]
    | obj fs => cases fuel2 <;> simp [instanceValidFuel]
  | succ m ih =>
    intro fuel2 e h1 h2
    cases e with
    | inst dE mE hE sdE fsE =>
      cases fuel2 with
      | zero =>
        simp only [instDepth] at h2
        omega
      | succ m2 =>
        conv_lhs => rw [instanceValidFuel.eq_def]
        conv_rhs => rw [instanceValidFuel.eq_def]
        simp only []
        have hb1 : instDepthF fsE ≤ m := by
          simp only [instDepth] at h1
          omega
        have hb2 : instDepthF fsE ≤ m2 := by
          simp only [instDepth] at h2
          omega
        have hevS : ∀ e2, instDepth e2 ≤ instDepth (JVal.obj fsE) →
            instanceValidFuel env m e2 = instanceValidFuel env m2 e2 := by
          intro e2 he2
          simp only [instDepth] at he2
          exact ih m2 e2 (le_trans he2 hb1) (le_trans he2 hb2)
        have hdoc : doDocumentFieldsHaveError env (instanceValidFuel env m)
            dE mE (.obj fsE)
            = doDocumentFieldsHaveError env (instanceValidFuel env m2)
              dE mE (.obj fsE) := by
          conv_lhs => rw [doDocumentFieldsHaveError]
          conv_rhs => rw [doDocumentFieldsHaveError]
          rw [docFieldsLoop_congr env (sizeOf dE) dE (le_refl _)
            (instanceValidFuel env m) (instanceValidFuel env m2)
            mE (.obj fsE) hevS]
        rw [hdoc]
    | undef => cases fuel2 <;> simp [instanceValidFuel]
    | nullv => cases fuel2 <;> simp [instanceValidFuel]
    | boolv b => cases fuel2 <;> simp [instanceValidFuel]
    | num m2 => cases fuel2 <;> simp [instanceValidFuel]
    | strv s => cases fuel2 <;> simp [instanceValidFuel]
    | fn => cases fuel2 <;> simp [instanceValidFuel]
    | arr xs => cases fuel2 <;> simp [instanceValidFuel]
    | obj fs => cases fuel2 <;> simp [instanceValidFuel]

/-- The depth seed is sufficient: whenever the depth argument is at least
the element's instance-nesting depth, `instanceValidFuel` computes the
same verdict as `instanceIsValidB`, so the recursion of the source's
`isValid()` is modelled exactly and the exhaustion arm is unreachable. -/
theorem instanceValidFuel_sufficient (env : Env) (fuel : Nat) (e : JVal)
    (h : instDepth e ≤ fuel) :
    instanceValidFuel env fuel e = instanceIsValidB env e := by
  rw [instanceIsValidB]
  exact instanceValidFuel_congr env fuel (instDepth e) e h (le_refl _)

end Frankenstein
